import Mathlib

/-!
# Verification of `multimaterial-voxelization`'s geometric core

Shallow embedding of `src/material_mesh.rs` (the `MaterialMesh` geometric
kernel).  Coordinates are embedded as exact rationals (`ℚ`): every geometric
predicate of the source (`perp_dot > 0.0`, `pos.x.abs() == 0.5`, `volume <
0.0`, floor divisions, …) is algebraic, and the exact-arithmetic reading is
the specification-level meaning of the `f64` code.

Conventions used throughout:

* `petgraph::Graph` is embedded as a node-weight list plus an edge list of
  index pairs; `add_node`/`add_edge` append, so indices are list positions.
* `retain_edges` is embedded faithfully: reverse index order, the closure
  sees earlier removals, and `remove_edge` swap-removes (the last edge moves
  into the freed slot), exactly as in `petgraph`.
* `retain_nodes` is embedded as an order-preserving filter with reindexing
  of edge endpoints.  The source's swap-based node removal differs from this
  only in the resulting node *order*; every use in this file is followed by
  order-insensitive consumption (position-keyed maps, key-based sorting with
  injective keys, minimum by a position key), so the filter model is
  observationally faithful.
* `FnvHashMap<HashVec2, _>` keyed by positions is embedded as an association
  list with first-key-wins `entry` semantics; `HashVec2`/`HashVec3` equality
  is embedded as `ℚ`-equality of the coordinates.
-/

namespace Voxel

/-- 2D vector, `crate::util::Vec2` (a `cgmath` vector of `f64`), embedded over `ℚ`. -/
structure Vec2 where
  x : ℚ
  y : ℚ
deriving DecidableEq, Repr

/-- 3D vector (`tri_mesh`'s `Vec3`), embedded over `ℚ`. -/
structure Vec3 where
  x : ℚ
  y : ℚ
  z : ℚ
deriving DecidableEq, Repr

def vec2 (x y : ℚ) : Vec2 := ⟨x, y⟩

def vec3 (x y z : ℚ) : Vec3 := ⟨x, y, z⟩

/-- `MaterialMesh::EPSILON = 1e-5`. -/
def EPSILON : ℚ := 1 / 100000

/-- `f64::abs`, written so that it kernel-reduces on concrete rationals. -/
def qabs (q : ℚ) : ℚ := if q < 0 then -q else q

theorem qabs_eq_abs (q : ℚ) : qabs q = |q| := by
  unfold qabs
  rcases lt_trichotomy q 0 with h | h | h
  · rw [if_pos h, abs_of_neg h]
  · simp [h]
  · rw [if_neg (not_lt.mpr (le_of_lt h)), abs_of_pos h]

/-!
Rational arithmetic, re-expressed through `mkRat` and the `num`/`den`
projections so that closed terms reduce in the kernel (the ambient
field operations on `ℚ` are irreducible and block `decide`).  Each wrapper
is proved equal to the corresponding field operation.
-/

def qadd (a b : ℚ) : ℚ := mkRat (a.num * b.den + b.num * a.den) (a.den * b.den)

def qsub (a b : ℚ) : ℚ := mkRat (a.num * b.den - b.num * a.den) (a.den * b.den)

def qmul (a b : ℚ) : ℚ := mkRat (a.num * b.num) (a.den * b.den)

/-- `a / b` (division by zero yields zero, as in `ℚ`). -/
def qdiv (a b : ℚ) : ℚ :=
  if 0 ≤ b.num then mkRat (a.num * b.den) (a.den * b.num.natAbs)
  else mkRat (-(a.num * b.den)) (a.den * b.num.natAbs)

/-- `1/2`, in kernel-canonical form. -/
def half : ℚ := mkRat 1 2

theorem half_eq : half = 1 / 2 := by norm_num [half]

theorem qadd_eq (a b : ℚ) : qadd a b = a + b := by
  unfold qadd
  rw [Rat.mkRat_eq_div]
  push_cast
  conv_rhs => rw [← Rat.num_div_den a, ← Rat.num_div_den b]
  rw [div_add_div _ _ (Nat.cast_ne_zero.mpr a.den_nz) (Nat.cast_ne_zero.mpr b.den_nz)]
  congr 1
  ring

theorem qsub_eq (a b : ℚ) : qsub a b = a - b := by
  unfold qsub
  rw [Rat.mkRat_eq_div]
  push_cast
  conv_rhs => rw [← Rat.num_div_den a, ← Rat.num_div_den b]
  rw [div_sub_div _ _ (Nat.cast_ne_zero.mpr a.den_nz) (Nat.cast_ne_zero.mpr b.den_nz)]
  congr 1
  ring

theorem qmul_eq (a b : ℚ) : qmul a b = a * b := by
  unfold qmul
  rw [Rat.mkRat_eq_div]
  push_cast
  conv_rhs => rw [← Rat.num_div_den a, ← Rat.num_div_den b]
  rw [div_mul_div_comm]

theorem qdiv_eq (a b : ℚ) : qdiv a b = a / b := by
  unfold qdiv
  rcases le_or_lt 0 b.num with h | h
  · rw [if_pos h, Rat.mkRat_eq_divInt, Rat.div_def']
    congr 1
    push_cast [Int.natAbs_of_nonneg h]
    ring
  · rw [if_neg (not_le.mpr h), Rat.mkRat_eq_divInt, Rat.div_def']
    have hnb : ((a.den * b.num.natAbs : ℕ) : ℤ) = -((a.den : ℤ) * b.num) := by
      push_cast [Int.ofNat_natAbs_of_nonpos (le_of_lt h)]
      ring
    rw [hnb, Rat.divInt_neg, neg_neg]

namespace Vec2

/-- `cgmath`'s `Vector2::perp_dot`: `self.x * other.y - self.y * other.x`. -/
def perp_dot (a b : Vec2) : ℚ := qsub (qmul a.x b.y) (qmul a.y b.x)

def sub (a b : Vec2) : Vec2 := ⟨qsub a.x b.x, qsub a.y b.y⟩

def dot (a b : Vec2) : ℚ := qadd (qmul a.x b.x) (qmul a.y b.y)

/-- Squared Euclidean norm (used to compare normalized dot products exactly). -/
def sqnorm (a : Vec2) : ℚ := qadd (qmul a.x a.x) (qmul a.y a.y)

def neg (a : Vec2) : Vec2 := ⟨-a.x, -a.y⟩

theorem perp_dot_def (a b : Vec2) : a.perp_dot b = a.x * b.y - a.y * b.x := by
  simp [perp_dot, qsub_eq, qmul_eq]

theorem sub_def (a b : Vec2) : a.sub b = ⟨a.x - b.x, a.y - b.y⟩ := by
  simp [sub, qsub_eq]

theorem dot_def (a b : Vec2) : a.dot b = a.x * b.x + a.y * b.y := by
  simp [dot, qadd_eq, qmul_eq]

theorem sqnorm_def (a : Vec2) : a.sqnorm = a.x * a.x + a.y * a.y := by
  simp [sqnorm, qadd_eq, qmul_eq]

end Vec2

namespace Vec3

def add (a b : Vec3) : Vec3 := ⟨qadd a.x b.x, qadd a.y b.y, qadd a.z b.z⟩

def sub (a b : Vec3) : Vec3 := ⟨qsub a.x b.x, qsub a.y b.y, qsub a.z b.z⟩

def smul (q : ℚ) (a : Vec3) : Vec3 := ⟨qmul q a.x, qmul q a.y, qmul q a.z⟩

def dot (a b : Vec3) : ℚ :=
  qadd (qadd (qmul a.x b.x) (qmul a.y b.y)) (qmul a.z b.z)

def cross (a b : Vec3) : Vec3 :=
  ⟨qsub (qmul a.y b.z) (qmul a.z b.y), qsub (qmul a.z b.x) (qmul a.x b.z),
    qsub (qmul a.x b.y) (qmul a.y b.x)⟩

theorem add_def (a b : Vec3) : a.add b = ⟨a.x + b.x, a.y + b.y, a.z + b.z⟩ := by
  simp [add, qadd_eq]

theorem sub3_def (a b : Vec3) : a.sub b = ⟨a.x - b.x, a.y - b.y, a.z - b.z⟩ := by
  simp [sub, qsub_eq]

theorem smul_def (q : ℚ) (a : Vec3) : a.smul q = ⟨q * a.x, q * a.y, q * a.z⟩ := by
  simp [smul, qmul_eq]

theorem dot3_def (a b : Vec3) : a.dot b = a.x * b.x + a.y * b.y + a.z * b.z := by
  simp [dot, qadd_eq, qmul_eq]

theorem cross_def (a b : Vec3) : a.cross b =
    ⟨a.y * b.z - a.z * b.y, a.z * b.x - a.x * b.z, a.x * b.y - a.y * b.x⟩ := by
  simp [cross, qsub_eq, qmul_eq]

def sqnorm (a : Vec3) : ℚ := a.dot a

def neg (a : Vec3) : Vec3 := ⟨-a.x, -a.y, -a.z⟩

/-- Coordinate access by axis index, `pos[axis_id]`. -/
def coord (a : Vec3) : Nat → ℚ
  | 0 => a.x
  | 1 => a.y
  | _ => a.z

/-- Coordinate update by axis index, `pos[axis_id] = q`. -/
def setCoord (a : Vec3) (i : Nat) (q : ℚ) : Vec3 :=
  match i with
  | 0 => ⟨q, a.y, a.z⟩
  | 1 => ⟨a.x, q, a.z⟩
  | _ => ⟨a.x, a.y, q⟩

def unit_x : Vec3 := ⟨1, 0, 0⟩
def unit_y : Vec3 := ⟨0, 1, 0⟩
def unit_z : Vec3 := ⟨0, 0, 1⟩
def zero : Vec3 := ⟨0, 0, 0⟩

end Vec3

/-- `MaterialID(NonZeroU32)`; id 0 is reserved for "no material". -/
structure MaterialID where
  id : ℕ
deriving DecidableEq, Repr

/-- `MaterialID::new(1)`, also the builder's `with_default_tag` value. -/
def MaterialID.one : MaterialID := ⟨1⟩

/-- First index of an element in a list (the `position`/`index_of` idiom). -/
def idxOf? {α : Type} [DecidableEq α] : List α → α → Option Nat
  | [], _ => none
  | b :: l, a => if b = a then some 0 else (idxOf? l a).map (· + 1)

/-- A `petgraph::Graph<N, ()>`: node weights in index order plus directed
edges as pairs of node indices.  `add_node`/`add_edge` append. -/
structure Graph (N : Type) where
  nodes : List N
  edges : List (Nat × Nat)
deriving DecidableEq, Repr

namespace Graph

def empty {N : Type} : Graph N := ⟨[], []⟩

/-- `Graph::add_node`: appends, returning the fresh index. -/
def addNode {N : Type} (g : Graph N) (w : N) : Graph N × Nat :=
  (⟨g.nodes ++ [w], g.edges⟩, g.nodes.length)

/-- `Graph::add_edge` (weights are `()`, so only endpoints are recorded). -/
def addEdge {N : Type} (g : Graph N) (a b : Nat) : Graph N :=
  ⟨g.nodes, g.edges ++ [(a, b)]⟩

/-- First index of `t` in the edge list. -/
def findEdgeAux : List (Nat × Nat) → Nat → Nat × Nat → Option Nat
  | [], _, _ => none
  | e :: es, i, t => if e = t then some i else findEdgeAux es (i + 1) t

/-- `Graph::find_edge(a, b)`: first edge index from `a` to `b`, if any. -/
def findEdge {N : Type} (g : Graph N) (a b : Nat) : Option Nat :=
  findEdgeAux g.edges 0 (a, b)

/-- `Graph::update_edge(a, b, ())`: insert the edge unless already present
(the weight update is a no-op for `()` weights). -/
def updateEdge {N : Type} (g : Graph N) (a b : Nat) : Graph N :=
  if (g.findEdge a b).isSome then g else g.addEdge a b

/-- `GraphEx::outdegree` (from the absent `util.rs`).
Modelled from the spec: §4.4 stores the boundary graph "as adjacency lists
with explicit in/out degree counters"; the outdegree of `n` is the number of
edges with source `n`. -/
def outdegree {N : Type} (g : Graph N) (n : Nat) : Nat :=
  (g.edges.filter (fun e => e.1 = n)).length

/-- `GraphEx::indegree` (from the absent `util.rs`).
Modelled from the spec: number of edges with target `n`. -/
def indegree {N : Type} (g : Graph N) (n : Nat) : Nat :=
  (g.edges.filter (fun e => e.2 = n)).length

/-- `GraphEx::degree` (from the absent `util.rs`).
Modelled from the spec: total number of edge endpoints at `n` ("graph
degree" of §4.4 step 9). -/
def degree {N : Type} (g : Graph N) (n : Nat) : Nat :=
  g.indegree n + g.outdegree n

def edgeCount {N : Type} (g : Graph N) : Nat := g.edges.length

/-- `petgraph`'s `remove_edge` swap-removal on the edge list: the last edge
moves into slot `i`. -/
def removeEdgeSwap (es : List (Nat × Nat)) (i : Nat) : List (Nat × Nat) :=
  let front := es.dropLast
  match es.getLast? with
  | none => es
  | some last => if i < front.length then front.set i last else front

/-- One pass of `Graph::retain_edges` from edge index `fuel - 1` down to `0`:
the closure sees all previous removals, exactly as `petgraph` passes the
`Frozen` graph to `visit`. -/
def retainEdgesAux {N : Type} (visit : Graph N → Nat × Nat → Bool) :
    Nat → Graph N → Graph N
  | 0, g => g
  | i + 1, g =>
    let g' :=
      match g.edges.get? i with
      | none => g
      | some e => if visit g e then g else ⟨g.nodes, removeEdgeSwap g.edges i⟩
    retainEdgesAux visit i g'

/-- `Graph::retain_edges`. -/
def retainEdges {N : Type} (g : Graph N) (visit : Graph N → Nat × Nat → Bool) :
    Graph N :=
  retainEdgesAux visit g.edges.length g

/-- `retain_edges` variant that also reports whether anything was removed
(the source sets a captured `bool` in the closure). -/
def retainEdgesFlagAux {N : Type} (keep : Nat × Nat → Bool) :
    Nat → Graph N × Bool → Graph N × Bool
  | 0, s => s
  | i + 1, (g, flag) =>
    let s' :=
      match g.edges.get? i with
      | none => (g, flag)
      | some e =>
        if keep e then (g, flag) else (⟨g.nodes, removeEdgeSwap g.edges i⟩, true)
    retainEdgesFlagAux keep i s'

/-- `retain_edges` with a per-edge (state-independent) closure plus the
"did we ignore anything" flag used by the CCW/CW boundary strips. -/
def retainEdgesFlag {N : Type} (g : Graph N) (keep : Nat × Nat → Bool) :
    Graph N × Bool :=
  retainEdgesFlagAux keep g.edges.length (g, false)

/-- `Graph::retain_nodes`, embedded as an order-preserving filter: kept nodes
keep their relative order and edge endpoints are renumbered.  (See the header
comment: the swap-based order of the source is never observed.) -/
def retainNodes {N : Type} (g : Graph N) (keep : Graph N → Nat → Bool) :
    Graph N :=
  let keptIdx := (List.range g.nodes.length).filter (keep g)
  let renum : Nat → Option Nat := fun n => idxOf? keptIdx n
  { nodes := keptIdx.filterMap (fun n => g.nodes.get? n)
    edges := g.edges.filterMap (fun e =>
      match renum e.1, renum e.2 with
      | some a, some b => some (a, b)
      | _, _ => none) }

/-- `Graph::reverse`: flips the direction of every edge. -/
def reverse {N : Type} (g : Graph N) : Graph N :=
  ⟨g.nodes, g.edges.map (fun e => (e.2, e.1))⟩

/-- Edge list as pairs of node weights (for stating position-level facts). -/
def edgePositions {N : Type} [Inhabited N] (g : Graph N) : List (N × N) :=
  g.edges.map (fun e => (g.nodes.getD e.1 default, g.nodes.getD e.2 default))

/-- Well-formedness: every edge endpoint indexes a node. -/
def WF {N : Type} (g : Graph N) : Prop :=
  ∀ e ∈ g.edges, e.1 < g.nodes.length ∧ e.2 < g.nodes.length

end Graph

/-- Association-list lookup (our embedding of `FnvHashMap` keyed by hashed
positions; position hashing compares coordinates bit-for-bit, i.e. equality). -/
def alookup {α β : Type} [DecidableEq α] : List (α × β) → α → Option β
  | [], _ => none
  | (k, v) :: m, k' => if k = k' then some v else alookup m k'

theorem alookup_isSome {α β : Type} [DecidableEq α] (m : List (α × β)) (k : α) :
    (alookup m k).isSome = true ↔ k ∈ m.map Prod.fst := by
  induction m with
  | nil => simp [alookup]
  | cons e m ih =>
    obtain ⟨k', v⟩ := e
    by_cases h : k' = k
    · subst h; simp [alookup]
    · simp only [alookup, h, if_false, ih, List.map_cons, List.mem_cons]
      exact ⟨Or.inr, fun h' => h'.resolve_left fun h'' => h h''.symm⟩

/-!
## `combine_equal_vertices` (material_mesh.rs lines 661-682)
-/

/-- The `position_map.entry(pos).or_insert_with(|| res.add_node(pos))` fold:
first occurrence of each position becomes a node of `res`. -/
def combineNodesStep (s : Graph Vec2 × List (Vec2 × Nat)) (pos : Vec2) :
    Graph Vec2 × List (Vec2 × Nat) :=
  match alookup s.2 pos with
  | some _ => s
  | none =>
    let (g, idx) := s.1.addNode pos
    (g, (pos, idx) :: s.2)

def combineNodes (nodes : List Vec2) : Graph Vec2 × List (Vec2 × Nat) :=
  nodes.foldl combineNodesStep (Graph.empty, [])

/-- The nested lookups of the edge fold of `combine_equal_vertices`: both
endpoint positions, then both `position_map` entries. -/
def combIdx (boundary : Graph Vec2) (posMap : List (Vec2 × Nat))
    (e : Nat × Nat) : Option (Nat × Nat) :=
  (boundary.nodes.get? e.1).bind (fun p0 =>
    (boundary.nodes.get? e.2).bind (fun p1 =>
      (alookup posMap p0).bind (fun i0 =>
        (alookup posMap p1).map (fun i1 => (i0, i1)))))

/-- One step of the edge fold of `combine_equal_vertices`: look both
endpoint positions up in the position map and `update_edge` unless the
merged endpoints coincide (a self-loop). -/
def combineEdgesStep (boundary : Graph Vec2) (posMap : List (Vec2 × Nat))
    (res : Graph Vec2) (e : Nat × Nat) : Graph Vec2 :=
  match combIdx boundary posMap e with
  | some (i0, i1) => if i0 ≠ i1 then res.updateEdge i0 i1 else res
  | none => res

/-- `MaterialMesh::combine_equal_vertices`: merge equal-position vertices,
drop self-loops, and collapse parallel duplicate edges via `update_edge`. -/
def combine_equal_vertices (boundary : Graph Vec2) : Graph Vec2 :=
  let s := combineNodes boundary.nodes
  boundary.edges.foldl (combineEdgesStep boundary s.2) s.1

/-!
## Lemmas about the graph embedding
-/

theorem foldl_invariant {α σ : Type _} (f : σ → α → σ) (P : σ → Prop)
    (h : ∀ s a, P s → P (f s a)) :
    ∀ (l : List α) (s : σ), P s → P (l.foldl f s) := by
  intro l
  induction l with
  | nil => intro s hs; exact hs
  | cons a l ih => intro s hs; exact ih _ (h s a hs)

theorem findEdgeAux_isSome (es : List (Nat × Nat)) (i : Nat) (t : Nat × Nat) :
    (Graph.findEdgeAux es i t).isSome = true ↔ t ∈ es := by
  induction es generalizing i with
  | nil => simp [Graph.findEdgeAux]
  | cons e es ih =>
    by_cases h : e = t
    · subst h; simp [Graph.findEdgeAux]
    · simp only [Graph.findEdgeAux, h, if_false, ih, List.mem_cons]
      exact ⟨Or.inr, fun h' => h'.resolve_left fun h'' => h h''.symm⟩

theorem findEdge_isSome {N : Type} (g : Graph N) (a b : Nat) :
    (g.findEdge a b).isSome = true ↔ (a, b) ∈ g.edges :=
  findEdgeAux_isSome g.edges 0 (a, b)

theorem updateEdge_nodes {N : Type} (g : Graph N) (a b : Nat) :
    (g.updateEdge a b).nodes = g.nodes := by
  unfold Graph.updateEdge Graph.addEdge
  split <;> rfl

theorem updateEdge_edges {N : Type} (g : Graph N) (a b : Nat) :
    (g.updateEdge a b).edges = g.edges ∨
      ((g.updateEdge a b).edges = g.edges ++ [(a, b)] ∧ (a, b) ∉ g.edges) := by
  unfold Graph.updateEdge
  by_cases h : (g.findEdge a b).isSome = true
  · left; simp [h]
  · right
    refine ⟨by simp [h, Graph.addEdge], ?_⟩
    intro hmem
    exact h ((findEdge_isSome g a b).mpr hmem)

/-!
## C10: properties of `combine_equal_vertices`
-/

/-- Invariant carried through the node-merging fold of `combine_equal_vertices`. -/
def CombineNodesInv (s : Graph Vec2 × List (Vec2 × Nat)) : Prop :=
  s.1.nodes.Nodup ∧ (∀ p : Vec2, (alookup s.2 p).isSome = true ↔ p ∈ s.1.nodes) ∧
    s.1.edges = []

theorem combineNodesStep_inv (s : Graph Vec2 × List (Vec2 × Nat)) (pos : Vec2)
    (h : CombineNodesInv s) : CombineNodesInv (combineNodesStep s pos) := by
  obtain ⟨hnd, hlk, hed⟩ := h
  unfold combineNodesStep
  cases hcase : alookup s.2 pos with
  | some v => exact ⟨hnd, hlk, hed⟩
  | none =>
    have hpos : pos ∉ s.1.nodes := by
      intro hmem
      have := (hlk pos).mpr hmem
      rw [hcase] at this
      simp at this
    refine ⟨?_, ?_, hed⟩
    · simpa [Graph.addNode, List.nodup_append, hnd] using hpos
    · intro p
      by_cases hp : pos = p
      · subst hp
        simp [Graph.addNode, alookup]
      · simp only [Graph.addNode, alookup, hp, if_false]
        rw [hlk p]
        simp only [List.mem_append, List.mem_singleton]
        exact ⟨Or.inl, fun h' => h'.resolve_right fun h'' => hp h''.symm⟩

theorem combineNodes_inv (nodes : List Vec2) : CombineNodesInv (combineNodes nodes) := by
  unfold combineNodes
  apply foldl_invariant combineNodesStep CombineNodesInv combineNodesStep_inv
  exact ⟨List.nodup_nil, by simp [alookup, Graph.empty], rfl⟩

/-- Invariant carried through the edge fold of `combine_equal_vertices`. -/
def CombineEdgesInv (nds : List Vec2) (res : Graph Vec2) : Prop :=
  res.nodes = nds ∧ res.edges.Nodup ∧ ∀ e ∈ res.edges, e.1 ≠ e.2

theorem combineEdgesStep_inv (boundary : Graph Vec2) (posMap : List (Vec2 × Nat))
    (nds : List Vec2) (res : Graph Vec2) (e : Nat × Nat)
    (h : CombineEdgesInv nds res) :
    CombineEdgesInv nds (combineEdgesStep boundary posMap res e) := by
  obtain ⟨hn, hnodup, hne⟩ := h
  unfold combineEdgesStep
  cases hidx : combIdx boundary posMap e with
  | none => exact ⟨hn, hnodup, hne⟩
  | some pair =>
    obtain ⟨i0, i1⟩ := pair
    dsimp only
    by_cases hii : i0 ≠ i1
    · rw [if_pos hii]
      refine ⟨by rw [updateEdge_nodes]; exact hn, ?_, ?_⟩
      · rcases updateEdge_edges res i0 i1 with h | ⟨h, hnm⟩
        · rw [h]; exact hnodup
        · rw [h]
          simp [List.nodup_append, hnodup, hnm]
      · intro f hf
        rcases updateEdge_edges res i0 i1 with h | ⟨h, -⟩
        · exact hne f (h ▸ hf)
        · rw [h] at hf
          rcases List.mem_append.mp hf with h' | h'
          · exact hne f h'
          · simp at h'
            rw [h']
            exact hii
    · rw [if_neg hii]
      exact ⟨hn, hnodup, hne⟩

theorem combine_equal_vertices_inv (boundary : Graph Vec2) :
    CombineEdgesInv (combineNodes boundary.nodes).1.nodes
      (combine_equal_vertices boundary) := by
  obtain ⟨-, -, hed⟩ := combineNodes_inv boundary.nodes
  unfold combine_equal_vertices
  apply foldl_invariant _ (CombineEdgesInv (combineNodes boundary.nodes).1.nodes)
    (combineEdgesStep_inv boundary _ _)
  exact ⟨rfl, by rw [hed]; exact List.nodup_nil, by rw [hed]; simp⟩

/-- C10: for every input 2D boundary graph, the graph returned by
`combine_equal_vertices` has pairwise-distinct node positions, contains no
self-loops, and has at most one directed edge between any ordered pair of
nodes. -/
theorem c10_combine_equal_vertices_simple (boundary : Graph Vec2) :
    (combine_equal_vertices boundary).nodes.Nodup ∧
      (∀ e ∈ (combine_equal_vertices boundary).edges, e.1 ≠ e.2) ∧
      (combine_equal_vertices boundary).edges.Nodup := by
  obtain ⟨hn, hnodup, hne⟩ := combine_equal_vertices_inv boundary
  obtain ⟨hnd, -, -⟩ := combineNodes_inv boundary.nodes
  exact ⟨hn ▸ hnd, hne, hnodup⟩

/-!
## C5: `intersect_center_unit_square_with_context` (lines 917-947)
-/

/-- A face of the (transformed) mesh: its three vertex positions.
`face_positions` of the half-edge façade returns exactly these. -/
abbrev Face3 := Vec3 × Vec3 × Vec3

/-- `face_center` of `tri_mesh`: the centroid of the three corners. -/
def faceCenter (f : Face3) : Vec3 :=
  Vec3.smul (mkRat 1 3) (f.1.add (f.2.1.add f.2.2))

/-- The signed axis volume computed by
`intersect_center_unit_square_with_context`:
`Σ (center.z - -1.0) * (pos.1 - pos.0).cross(pos.2 - pos.0).dot(unit_z)`. -/
def contextVolume (faces : List Face3) : ℚ :=
  (faces.map (fun f =>
    ((faceCenter f).z - (-1)) *
      ((f.2.1.sub f.1).cross (f.2.2.sub f.1)).dot Vec3.unit_z)).sum

/-- The four square corners in the order the source lists them. -/
def squareCorners : List Vec2 :=
  [vec2 (-half) (-half), vec2 (-half) half, vec2 half half, vec2 half (-half)]

/-- `positions.into_iter().map(|pos| boundary.add_node(pos)).collect()`. -/
def addNodesList {N : Type} (g : Graph N) (ws : List N) : Graph N × List Nat :=
  ws.foldl
    (fun (s : Graph N × List Nat) w =>
      let (g', i) := s.1.addNode w
      (g', s.2 ++ [i]))
    (g, [])

/-- `for ii in indexes.windows(2) { boundary.add_edge(ii[0], ii[1], ()) }`. -/
def addPathEdges {N : Type} (g : Graph N) : List Nat → Graph N
  | a :: b :: rest => addPathEdges (g.addEdge a b) (b :: rest)
  | _ => g

/-- Add the full square boundary: the four corners as fresh nodes plus the
cyclic edges between them (`indexes.push(indexes[0])` then windows-of-2). -/
def addFullSquareBoundary (g : Graph Vec2) : Graph Vec2 :=
  let (g', idxs) := addNodesList g squareCorners
  addPathEdges g' (idxs ++ idxs.take 1)

/-- `MaterialMesh::intersect_center_unit_square_with_context`: draw the full
square iff the signed axis volume under the mesh is strictly negative. -/
def intersect_center_unit_square_with_context (faces : List Face3)
    (boundary : Graph Vec2) : Graph Vec2 :=
  if contextVolume faces < 0 then addFullSquareBoundary boundary else boundary

theorem addPathEdges_nodes {N : Type} (g : Graph N) (l : List Nat) :
    (addPathEdges g l).nodes = g.nodes := by
  induction l generalizing g with
  | nil => rfl
  | cons a l ih =>
    cases l with
    | nil => rfl
    | cons b rest => simpa [addPathEdges, Graph.addEdge] using ih (g.addEdge a b)

theorem addFullSquareBoundary_nodes (g : Graph Vec2) :
    (addFullSquareBoundary g).nodes.length = g.nodes.length + 4 := by
  simp [addFullSquareBoundary, addNodesList, squareCorners, Graph.addNode,
    addPathEdges_nodes]

/-- C5: the context fallback adds the full square boundary to the graph if
and only if the signed axis volume `Σ (center_z + 1)·((p1−p0) × (p2−p0) · ẑ)`
is strictly negative; otherwise the graph is left unchanged. -/
theorem c5_context_fallback_volume (faces : List Face3) (boundary : Graph Vec2) :
    (intersect_center_unit_square_with_context faces boundary =
        addFullSquareBoundary boundary ↔ contextVolume faces < 0) ∧
      (¬ contextVolume faces < 0 →
        intersect_center_unit_square_with_context faces boundary = boundary) := by
  unfold intersect_center_unit_square_with_context
  by_cases hv : contextVolume faces < 0
  · simp [hv]
  · simp only [hv, if_false, iff_false]
    refine ⟨fun h => ?_, fun _ => trivial⟩
    have := congrArg (fun g : Graph Vec2 => g.nodes.length) h
    simp only [addFullSquareBoundary_nodes] at this
    omega

/-!
## C3: `contour_slice` (lines 454-514)

The mesh is embedded at face granularity: a face is its three vertex
positions plus its material tag (`face_center` and `face_tag` are the only
mesh queries `contour_slice` makes per face).  The per-slab `Intermediate`
(deduplicated vertex ids plus index/tag arrays) is embedded as the list of
faces inserted into the slab — `vertex_ids.len() > 0` holds iff at least one
face was inserted, and the sub-mesh built from an `Intermediate` is
determined by its face list.
-/

/-- A face as `contour_slice` sees it: positions plus material tag. -/
abbrev ContourFace := Face3 × MaterialID

/-- `l` with entry `i` modified in place (`&mut imms[slice]`); out-of-range
indices leave the list unchanged (the source would panic there — the C3
theorem's hypotheses put every insertion in range). -/
def modifyAt {α : Type} (l : List α) (i : Nat) (f : α → α) : List α :=
  match l.get? i with
  | none => l
  | some a => l.set i (f a)

/-- `((center - min) / spacing).floor() as usize` (the `as usize` cast
saturates negative values to 0, as `Int.toNat` does). -/
def slabIndex (axis_id : Nat) (spacing minS : ℚ) (f : ContourFace) : Nat :=
  ⌊((faceCenter f.1).coord axis_id - minS) / spacing⌋.toNat

/-- The body of the face loop of `contour_slice`. -/
def contourStep (axis_id : Nat) (spacing minS : ℚ)
    (imms : List (List ContourFace)) (f : ContourFace) : List (List ContourFace) :=
  let center := (faceCenter f.1).coord axis_id
  let slice := slabIndex axis_id spacing minS f
  if (slice : ℚ) * spacing + minS < center then
    modifyAt imms slice (fun l => l ++ [f])
  else
    imms

/-- `MaterialMesh::contour_slice`: distribute faces into
`⌊(max-min)/spacing⌋` slabs by centroid, skip faces sitting on their lower
slab plane, drop empty slabs, and pair each slab with its lower plane. -/
def contour_slice (axis_id : Nat) (spacing minS maxS : ℚ)
    (faces : List ContourFace) : List (ℚ × List ContourFace) :=
  let n := ⌊(maxS - minS) / spacing⌋.toNat
  let imms := faces.foldl (contourStep axis_id spacing minS) (List.replicate n [])
  (imms.enum.filter (fun p => ¬ p.2.isEmpty)).map
    (fun p => (minS + (p.1 : ℚ) * spacing, p.2))

/-- Spec-side description of slab `k`'s contents (spec §4.2): face `f`
belongs to slab `k = ⌊(center_A(f) - min)/s⌋` except when its centroid lies
on the lower slab boundary (`k·s + min ≥ center`). -/
def slabFaces (axis_id : Nat) (spacing minS : ℚ) (faces : List ContourFace)
    (k : Nat) : List ContourFace :=
  faces.filter (fun f =>
    slabIndex axis_id spacing minS f = k ∧
      (k : ℚ) * spacing + minS < (faceCenter f.1).coord axis_id)

/-- Spec-side description of `contour_slice` (spec §4.2): slab `k` receives
exactly `slabFaces k`, empty slabs are omitted, and each sub-mesh is paired
with its lower slab plane coordinate `min + k·s`. -/
def contour_slice_spec (axis_id : Nat) (spacing minS maxS : ℚ)
    (faces : List ContourFace) : List (ℚ × List ContourFace) :=
  let n := ⌊(maxS - minS) / spacing⌋.toNat
  ((List.range n).filter
      (fun k => ¬ (slabFaces axis_id spacing minS faces k).isEmpty)).map
    (fun (k : Nat) =>
      (minS + (k : ℚ) * spacing, slabFaces axis_id spacing minS faces k))

theorem modifyAt_range_map {α : Type} (n i : Nat) (g : Nat → α) (f : α → α)
    (hi : i < n) :
    modifyAt ((List.range n).map g) i f =
      (List.range n).map (fun k => if k = i then f (g k) else g k) := by
  have hget : ((List.range n).map g).get? i = some (g i) := by
    simp [List.get?_map, List.get?_range, hi]
  unfold modifyAt
  rw [hget]
  apply List.ext_get?
  intro j
  by_cases hj : j < n
  · by_cases hij : j = i
    · subst hij
      simp [List.get?_set_eq, List.get?_map, List.get?_range, hj]
    · rw [List.get?_set_ne _ _ (fun h => hij h.symm)]
      simp [List.get?_map, List.get?_range, hj, hij]
  · have h1 : ((List.range n).map g).length ≤ j := by
      simpa [Nat.not_lt.mp hj] using Nat.not_lt.mp hj
    rw [List.get?_eq_none.mpr (by simpa using h1),
      List.get?_eq_none.mpr (by simpa using Nat.not_lt.mp hj)]

theorem contour_fold_char (axis_id : Nat) (spacing minS : ℚ) (n : Nat)
    (faces : List ContourFace)
    (hin : ∀ f ∈ faces,
      ((slabIndex axis_id spacing minS f : ℚ) * spacing + minS <
        (faceCenter f.1).coord axis_id) →
      slabIndex axis_id spacing minS f < n) :
    ∀ g : Nat → List ContourFace,
      faces.foldl (contourStep axis_id spacing minS) ((List.range n).map g) =
        (List.range n).map
          (fun k => g k ++ slabFaces axis_id spacing minS faces k) := by
  induction faces with
  | nil =>
    intro g
    simp [slabFaces]
  | cons f fs ih =>
    intro g
    have hin' : ∀ f' ∈ fs,
        ((slabIndex axis_id spacing minS f' : ℚ) * spacing + minS <
          (faceCenter f'.1).coord axis_id) →
        slabIndex axis_id spacing minS f' < n :=
      fun f' hf' => hin f' (List.mem_cons_of_mem f hf')
    rw [List.foldl_cons]
    by_cases hcond : (slabIndex axis_id spacing minS f : ℚ) * spacing + minS <
        (faceCenter f.1).coord axis_id
    · have hlt := hin f (List.mem_cons_self f fs) hcond
      have hstep : contourStep axis_id spacing minS ((List.range n).map g) f =
          (List.range n).map (fun k =>
            if k = slabIndex axis_id spacing minS f then g k ++ [f] else g k) := by
        unfold contourStep
        simp only [hcond, if_true]
        exact modifyAt_range_map n _ g _ hlt
      rw [hstep, ih hin']
      apply List.map_congr_left
      intro k hk
      by_cases hks : k = slabIndex axis_id spacing minS f
      · subst hks
        have h1 : decide (slabIndex axis_id spacing minS f =
            slabIndex axis_id spacing minS f) = true := by simp
        have h2 : decide ((slabIndex axis_id spacing minS f : ℚ) * spacing +
            minS < (faceCenter f.1).coord axis_id) = true := by
          simpa using hcond
        simp [slabFaces, List.filter_cons, h1, h2]
      · have h1 : decide (slabIndex axis_id spacing minS f = k) = false :=
          decide_eq_false (fun h => hks h.symm)
        simp [slabFaces, List.filter_cons, h1, hks]
    · have hstep : contourStep axis_id spacing minS ((List.range n).map g) f =
          (List.range n).map g := by
        unfold contourStep
        simp [hcond]
      rw [hstep, ih hin']
      apply List.map_congr_left
      intro k hk
      by_cases hks : k = slabIndex axis_id spacing minS f
      · subst hks
        have h2 : decide ((slabIndex axis_id spacing minS f : ℚ) * spacing +
            minS < (faceCenter f.1).coord axis_id) = false := by
          simpa using hcond
        simp [slabFaces, List.filter_cons, h2]
      · have h1 : decide (slabIndex axis_id spacing minS f = k) = false :=
          decide_eq_false (fun h => hks h.symm)
        simp [slabFaces, List.filter_cons, h1]

/-- C3: under the contouring preconditions (positive spacing, the range an
integer multiple of the spacing, all face centroids inside the range),
`contour_slice` places each face into the sub-mesh of slab
`k = ⌊(center_A(f) − min)/s⌋` except faces with `k·s + min ≥ center`, omits
slabs that receive no face, and pairs each sub-mesh with its lower slab
plane `min + k·s` — i.e. it equals the spec-side description. -/
theorem c3_contour_slice_spec (axis_id : Nat) (spacing minS maxS : ℚ)
    (faces : List ContourFace) (hs : 0 < spacing)
    (hm : ∃ m : ℕ, maxS = minS + (m : ℚ) * spacing)
    (hc : ∀ f ∈ faces, minS ≤ (faceCenter f.1).coord axis_id ∧
      (faceCenter f.1).coord axis_id ≤ maxS) :
    contour_slice axis_id spacing minS maxS faces =
      contour_slice_spec axis_id spacing minS maxS faces := by
  obtain ⟨m, hmeq⟩ := hm
  have hn : (⌊(maxS - minS) / spacing⌋.toNat) = m := by
    rw [hmeq]
    have : (minS + (m : ℚ) * spacing - minS) / spacing = (m : ℚ) := by
      field_simp
    rw [this]
    rw [Int.floor_natCast]
    exact Int.toNat_natCast m
  have hin : ∀ f ∈ faces,
      ((slabIndex axis_id spacing minS f : ℚ) * spacing + minS <
        (faceCenter f.1).coord axis_id) →
      slabIndex axis_id spacing minS f < ⌊(maxS - minS) / spacing⌋.toNat := by
    intro f hf hcond
    rw [hn]
    obtain ⟨hlo, hhi⟩ := hc f hf
    set c := (faceCenter f.1).coord axis_id with hc'
    have hq : (c - minS) / spacing ≤ (m : ℚ) := by
      rw [div_le_iff hs]
      rw [hmeq] at hhi
      linarith
    have hfl : ⌊(c - minS) / spacing⌋ ≤ (m : ℤ) := by
      have h2 : ⌊(c - minS) / spacing⌋ ≤ ⌊(m : ℚ)⌋ := Int.floor_le_floor hq
      simpa using h2
    have hnn : 0 ≤ ⌊(c - minS) / spacing⌋ := by
      apply Int.floor_nonneg.mpr
      apply div_nonneg (by linarith) (le_of_lt hs)
    have hIdx : (slabIndex axis_id spacing minS f : ℤ) =
        ⌊(c - minS) / spacing⌋ := by
      unfold slabIndex
      rw [← hc']
      exact Int.toNat_of_nonneg hnn
    have hle : slabIndex axis_id spacing minS f ≤ m := by
      have := hIdx ▸ hfl
      exact_mod_cast this
    rcases Nat.lt_or_ge (slabIndex axis_id spacing minS f) m with h | h
    · exact h
    · exfalso
      have heq : slabIndex axis_id spacing minS f = m := Nat.le_antisymm hle h
      rw [heq] at hcond
      rw [hmeq] at hhi
      linarith
  simp only [contour_slice, contour_slice_spec]
  have hrepl : (List.replicate (⌊(maxS - minS) / spacing⌋.toNat)
      ([] : List ContourFace)) =
      (List.range (⌊(maxS - minS) / spacing⌋.toNat)).map
        (fun _ => ([] : List ContourFace)) := by
    rw [List.map_const', List.length_range]
  rw [hrepl, contour_fold_char axis_id spacing minS _ faces hin]
  simp only [List.nil_append]
  rw [List.enum_eq_zip_range]
  have hzip : (List.range (⌊(maxS - minS) / spacing⌋.toNat)).zip
      ((List.range (⌊(maxS - minS) / spacing⌋.toNat)).map
        (fun k => slabFaces axis_id spacing minS faces k)) =
      (List.range (⌊(maxS - minS) / spacing⌋.toNat)).map
        (fun k => (k, slabFaces axis_id spacing minS faces k)) := by
    have := List.zip_map' (id : Nat → Nat)
      (fun k => slabFaces axis_id spacing minS faces k)
      (List.range (⌊(maxS - minS) / spacing⌋.toNat))
    simpa using this
  rw [List.length_map, List.length_range, hzip, List.filter_map, List.map_map]
  rfl

/-- C3 witness: one face with centroid `1/2` in range `[0, 2]` at spacing 1
lands in slab 0 and the two descriptions agree. -/
theorem c3_contour_slice_spec_witness :
    (0 : ℚ) < 1 ∧
      contour_slice 0 1 0 2
          [((vec3 0 0 0, vec3 1 0 0, vec3 (1/2) 1 0), MaterialID.one)] =
        contour_slice_spec 0 1 0 2
          [((vec3 0 0 0, vec3 1 0 0, vec3 (1/2) 1 0), MaterialID.one)] :=
  ⟨by norm_num,
    c3_contour_slice_spec 0 1 0 2 _ (by norm_num) ⟨2, by norm_num⟩
      (by
        intro f hf
        simp only [List.mem_singleton] at hf
        subst hf
        norm_num [faceCenter, Vec3.coord, Vec3.add, Vec3.smul, vec3,
          qadd_eq, qmul_eq])⟩

/-!
## C8: `dissolve_boundary_vertex` abort behavior (lines 115-169)

`dissolve_boundary_vertex` drives the external `tri_mesh` half-edge mesh
through `flip_edge` / `remove_manifold_vertex`; the mesh library is
abstracted as an operation record.  `flip_edge` returning `Err` leaves the
mesh unchanged and is modelled as `none`; a `tri_mesh` edge flip never adds
or removes vertices, which the C8 theorem takes as the hypothesis `hflip`.
The function returns `(mesh, completed?)`: it is total, so no error can
surface to the caller (the source function returns `()` and only uses
`return;` on the abort paths).
-/

/-- The half-edge mesh operations `dissolve_boundary_vertex` uses, over an
abstract mesh state `σ`, half-edge ids `HE` and vertex ids `V`. -/
structure MeshLib (σ HE V : Type) where
  /-- `Mesh::flip_edge`: `none` models `Err` (which leaves the mesh as it was). -/
  flipEdge : σ → HE → Option σ
  /-- The two 1-ring neighbour edges re-examined after a flip:
  `walker.previous_id()` and `walker.as_next().twin_id()`. -/
  flipNeighbors : σ → HE → HE × HE
  /-- `Mesh::remove_manifold_vertex`. -/
  removeManifoldVertex : σ → V → σ
  /-- `flippable_fn`: the concave-turn test
  `dir0.cross(dir1).dot(dir0.cross(-e_dir)) > 0.0` on non-boundary edges. -/
  flippable : σ → HE → Bool
  /-- Vertex membership (`mesh.vertex_iter().contains`). -/
  hasVertex : σ → V → Bool

/-- The `while inner_count > 0` loop.  The flippable stack keeps its top at
the head (Rust `Vec::pop` takes the last element; the list is the reversed
vector).  Returns the final mesh and whether the loop completed (reaching
`remove_manifold_vertex`) rather than aborting. -/
def dissolveLoop {σ HE V : Type} [DecidableEq HE] (L : MeshLib σ HE V) (v : V) :
    Nat → List HE → σ → σ × Bool
  | 0, _, m => (L.removeManifoldVertex m v, true)
  | Nat.succ c, flippable, m =>
    match flippable with
    | [] => (m, false)
    | he :: rest =>
      match L.flipEdge m he with
      | none => (m, false)
      | some m' =>
        let pn := L.flipNeighbors m' he
        let fl1 := if ¬ rest.contains pn.1 ∧ L.flippable m' pn.1
          then pn.1 :: rest else rest
        let fl2 := if ¬ fl1.contains pn.2 ∧ L.flippable m' pn.2
          then pn.2 :: fl1 else fl1
        dissolveLoop L v c fl2 m'

/-- `MaterialMesh::dissolve_boundary_vertex`, given the list `inner` of
non-boundary half-edges incident to `v` (in iteration order). -/
def dissolve_boundary_vertex {σ HE V : Type} [DecidableEq HE]
    (L : MeshLib σ HE V) (v : V) (inner : List HE) (m : σ) : σ × Bool :=
  dissolveLoop L v inner.length ((inner.filter (L.flippable m)).reverse) m

theorem dissolveLoop_abort_keeps_vertex {σ HE V : Type} [DecidableEq HE]
    (L : MeshLib σ HE V) (v : V)
    (hflip : ∀ (m : σ) (he : HE) (m' : σ),
      L.flipEdge m he = some m' → L.hasVertex m' v = L.hasVertex m v) :
    ∀ (c : Nat) (fl : List HE) (m : σ), L.hasVertex m v = true →
      (dissolveLoop L v c fl m).2 = false →
      L.hasVertex (dissolveLoop L v c fl m).1 v = true := by
  intro c
  induction c with
  | zero =>
    intro fl m hv habort
    simp [dissolveLoop] at habort
  | succ c ih =>
    intro fl m hv habort
    cases fl with
    | nil => simpa [dissolveLoop] using hv
    | cons he rest =>
      cases hf : L.flipEdge m he with
      | none => simpa [dissolveLoop, hf] using hv
      | some m' =>
        have hv' : L.hasVertex m' v = true := by rw [hflip m he m' hf]; exact hv
        simp only [dissolveLoop, hf] at habort ⊢
        exact ih _ m' hv' habort

/-- C8: if an edge flip fails, or no flip-eligible half-edge is left before
the non-boundary incidence count reaches zero, `dissolve_boundary_vertex`
returns with `v` still in the mesh (and, being total, surfaces no error). -/
theorem c8_dissolve_abort_keeps_vertex {σ HE V : Type} [DecidableEq HE]
    (L : MeshLib σ HE V) (v : V) (inner : List HE) (m : σ)
    (hflip : ∀ (m : σ) (he : HE) (m' : σ),
      L.flipEdge m he = some m' → L.hasVertex m' v = L.hasVertex m v)
    (hv : L.hasVertex m v = true)
    (habort : (dissolve_boundary_vertex L v inner m).2 = false) :
    L.hasVertex (dissolve_boundary_vertex L v inner m).1 v = true :=
  dissolveLoop_abort_keeps_vertex L v hflip _ _ m hv habort

/-- A tiny concrete mesh library: flips always fail, vertices are a list. -/
def flipFailLib : MeshLib (List Nat) Nat Nat where
  flipEdge := fun _ _ => none
  flipNeighbors := fun _ _ => (0, 0)
  removeManifoldVertex := fun m v => m.erase v
  flippable := fun _ _ => true
  hasVertex := fun m v => m.contains v

/-- C8 witness: with one incident non-boundary edge whose flip fails, the
procedure aborts and vertex 5 remains. -/
theorem c8_dissolve_abort_keeps_vertex_witness :
    flipFailLib.hasVertex [5] 5 = true ∧
      (dissolve_boundary_vertex flipFailLib 5 [1] [5]).2 = false ∧
      flipFailLib.hasVertex (dissolve_boundary_vertex flipFailLib 5 [1] [5]).1
        5 = true :=
  ⟨by decide, by decide,
    c8_dissolve_abort_keeps_vertex flipFailLib 5 [1] [5]
      (fun m he m' h => by simp [flipFailLib] at h)
      (by decide) (by decide)⟩

/-!
## C7: `split_edge` degenerate snapping (lines 303-359)
-/

/-- What `split_edge` hands back to `axis_contour`. -/
inductive SplitOutcome where
  /-- `return vec![]`: nothing is re-enqueued; the range is dropped. -/
  | dropped : SplitOutcome
  /-- `return vec![halfedge_id]`: the un-split edge itself is re-enqueued. -/
  | fragment : SplitOutcome
  /-- The non-degenerate path: the edge is split at `inter` and the new
  half-edges (upper fragment first, then triangulation edges) are returned. -/
  | split : Vec3 → SplitOutcome
deriving DecidableEq, Repr

/-- `for _ in 0..axis_id { inter = vec3(inter.z, inter.x, inter.y) }`. -/
def rotateCoords : Nat → Vec3 → Vec3
  | 0, v => v
  | n + 1, v => rotateCoords n (vec3 v.z v.x v.y)

/-- `MaterialMesh::split_edge`, with the mesh side effects made explicit:
the result carries the (possibly snapped) endpoint positions of the edge and
the outcome.  `rmin`/`rmax` are the `EdgeRange` bounds; the edge is assumed
by the caller to point in the +axis direction. -/
def split_edge (axis_id : Nat) (slice_coord : ℚ) (rmin rmax : ℚ)
    (pos0 pos1 : Vec3) : Vec3 × Vec3 × SplitOutcome :=
  let pos0 := if qabs (slice_coord - rmin) < EPSILON
    then pos0.setCoord axis_id slice_coord else pos0
  let pos1 := if qabs (slice_coord - rmax) < EPSILON
    then pos1.setCoord axis_id slice_coord else pos1
  if pos0.coord axis_id = slice_coord ∨ pos1.coord axis_id = slice_coord then
    (pos0, pos1,
      if pos1.coord axis_id ≠ slice_coord then .fragment else .dropped)
  else
    let t := (slice_coord - rmin) / (rmax - rmin)
    let inter := vec3 slice_coord
      (pos0.coord ((axis_id + 1) % 3) +
        (pos1.coord ((axis_id + 1) % 3) - pos0.coord ((axis_id + 1) % 3)) * t)
      (pos0.coord ((axis_id + 2) % 3) +
        (pos1.coord ((axis_id + 2) % 3) - pos0.coord ((axis_id + 2) % 3)) * t)
    (pos0, pos1, .split (rotateCoords axis_id inter))

/-- The claim C7 as stated: endpoints within ε are snapped and the split is
skipped; the range is dropped if and only if *both* endpoints then lie on the
plane, and otherwise the remaining fragment is re-enqueued. -/
def ClaimC7 : Prop :=
  ∀ (axis_id : Nat) (slice_coord rmin rmax : ℚ) (pos0 pos1 : Vec3),
    pos0.coord axis_id = rmin → pos1.coord axis_id = rmax →
    qabs (slice_coord - rmin) < EPSILON ∨ qabs (slice_coord - rmax) < EPSILON →
    ((split_edge axis_id slice_coord rmin rmax pos0 pos1).2.2 =
        SplitOutcome.dropped ↔
      ((split_edge axis_id slice_coord rmin rmax pos0 pos1).1.coord axis_id =
          slice_coord ∧
        (split_edge axis_id slice_coord rmin rmax pos0 pos1).2.1.coord axis_id =
          slice_coord)) ∧
    ((split_edge axis_id slice_coord rmin rmax pos0 pos1).2.2 =
        SplitOutcome.fragment ↔
      ¬((split_edge axis_id slice_coord rmin rmax pos0 pos1).1.coord axis_id =
          slice_coord ∧
        (split_edge axis_id slice_coord rmin rmax pos0 pos1).2.1.coord axis_id =
          slice_coord))

/-- C7 counterexample: on the edge from `(0,0,0)` to `(1,0,0)` sliced at
`x = 1`, only the upper endpoint lies on the plane, yet the code returns
`vec![]` (drops the range) instead of re-enqueueing a fragment. -/
theorem c7_counterexample : ¬ ClaimC7 := by
  intro h
  have h2 := h 0 1 0 1 (vec3 0 0 0) (vec3 1 0 0) rfl rfl
    (Or.inr (by norm_num [EPSILON, qabs]))
  have he : split_edge 0 1 0 1 (vec3 0 0 0) (vec3 1 0 0) =
      (vec3 0 0 0, vec3 1 0 0, SplitOutcome.dropped) := by
    norm_num [split_edge, EPSILON, qabs, Vec3.coord, Vec3.setCoord, vec3]
  rw [he] at h2
  have h3 := h2.1.mp rfl
  norm_num [Vec3.coord, vec3] at h3

/-- C7 amended: endpoints within ε of the slice coordinate are snapped
exactly onto the plane and the split is skipped; the range is dropped iff the
*upper* endpoint then lies on the plane (there is no fragment above), and the
remaining fragment is re-enqueued iff only the lower endpoint lies on it. -/
theorem c7_split_edge_degenerate (axis_id : Nat) (slice_coord rmin rmax : ℚ)
    (pos0 pos1 : Vec3) :
    ((qabs (slice_coord - rmin) < EPSILON →
        (split_edge axis_id slice_coord rmin rmax pos0 pos1).1 =
          pos0.setCoord axis_id slice_coord) ∧
      (qabs (slice_coord - rmax) < EPSILON →
        (split_edge axis_id slice_coord rmin rmax pos0 pos1).2.1 =
          pos1.setCoord axis_id slice_coord)) ∧
    (∀ p, ((split_edge axis_id slice_coord rmin rmax pos0 pos1).1.coord axis_id =
          slice_coord ∨
        (split_edge axis_id slice_coord rmin rmax pos0 pos1).2.1.coord axis_id =
          slice_coord) →
      (split_edge axis_id slice_coord rmin rmax pos0 pos1).2.2 ≠
        SplitOutcome.split p) ∧
    ((split_edge axis_id slice_coord rmin rmax pos0 pos1).2.2 =
        SplitOutcome.dropped ↔
      (split_edge axis_id slice_coord rmin rmax pos0 pos1).2.1.coord axis_id =
        slice_coord) ∧
    ((split_edge axis_id slice_coord rmin rmax pos0 pos1).2.2 =
        SplitOutcome.fragment ↔
      ((split_edge axis_id slice_coord rmin rmax pos0 pos1).1.coord axis_id =
          slice_coord ∧
        (split_edge axis_id slice_coord rmin rmax pos0 pos1).2.1.coord axis_id ≠
          slice_coord)) := by
  unfold split_edge
  by_cases h0 : qabs (slice_coord - rmin) < EPSILON <;>
    by_cases h1 : qabs (slice_coord - rmax) < EPSILON <;>
      simp only [h0, h1, if_true, if_false] <;>
        (by_cases hd0 : pos0.coord axis_id = slice_coord <;>
          by_cases hd1 : pos1.coord axis_id = slice_coord <;>
            by_cases hs0 : (pos0.setCoord axis_id slice_coord).coord axis_id =
                slice_coord <;>
              by_cases hs1 : (pos1.setCoord axis_id slice_coord).coord axis_id =
                  slice_coord <;>
                simp_all)

/-!
## `intersect_center_unit_square_on_graph` (lines 685-915)

The 2D kernel, split into the source's successive stages.  `f64` comparisons
of normalized dot products (`(a/‖u‖) < (b/‖v‖)`) are embedded exactly with
sign analysis and cross-multiplied squares; `atan2`-free, but order-exact.
-/

instance : Inhabited Vec2 := ⟨vec2 0 0⟩

instance : Inhabited Vec3 := ⟨Vec3.zero⟩

/-- "Edge is on boundary of face if at least 1 coordinate is ±0.5 and the
same": `(pos0.x.abs() == 0.5 && pos0.x == pos1.x) || (pos0.y.abs() == 0.5 &&
pos0.y == pos1.y)`. -/
def onSquareBoundary (p0 p1 : Vec2) : Bool :=
  (qabs p0.x = half && p0.x = p1.x) || (qabs p0.y = half && p0.y = p1.y)

/-- Slit-removal closure: keep an edge iff its reverse is not (any longer)
in the graph.  The closure observes earlier removals, as in the source. -/
def slitKeep (g : Graph Vec2) (e : Nat × Nat) : Bool :=
  (g.findEdge e.2 e.1).isNone

/-- CCW-strip: remove square-boundary edges winding counterclockwise
(`perp_dot > 0`). -/
def ccwKeep (nodes : List Vec2) (e : Nat × Nat) : Bool :=
  let p0 := nodes.getD e.1 default
  let p1 := nodes.getD e.2 default
  !(onSquareBoundary p0 p1 && p0.perp_dot p1 > 0)

/-- CW-strip: remove every remaining square-boundary edge. -/
def cwKeep (nodes : List Vec2) (e : Nat × Nat) : Bool :=
  let p0 := nodes.getD e.1 default
  let p1 := nodes.getD e.2 default
  !(onSquareBoundary p0 p1)

/-- The perimeter sort key of `points.sort_by_key` (the `unreachable!()`
branch is given a junk value; every sorted point satisfies one of the four
guards). -/
def perimKey (p : Vec2) : ℚ :=
  if p.x = -half then qadd half p.y
  else if p.y = half then qadd (mkRat 3 2) p.x
  else if p.x = half then qsub (mkRat 5 2) p.y
  else if p.y = -half then qsub (mkRat 7 2) p.x
  else 100

/-- Stable insertion sort (Rust's `sort_by_key` is stable): each element is
inserted after all earlier elements whose key is not larger. -/
def insertSorted {α : Type} (lt : α → α → Bool) (a : α) : List α → List α
  | [] => [a]
  | b :: rest => if lt a b then a :: b :: rest else b :: insertSorted lt a rest

def stableSortBy {α : Type} (lt : α → α → Bool) (l : List α) : List α :=
  l.foldl (fun acc a => insertSorted lt a acc) []

/-- `Vec::dedup_by_key` helper: drop elements equal to the last kept one. -/
def dedupConsecAux (prev : Vec2) : List Vec2 → List Vec2
  | [] => []
  | b :: rest =>
    if prev = b then dedupConsecAux prev rest else b :: dedupConsecAux b rest

/-- `Vec::dedup_by_key`: collapse *consecutive* duplicates, keeping the first. -/
def dedupConsec : List Vec2 → List Vec2
  | [] => []
  | a :: rest => a :: dedupConsecAux a rest

/-- The sorted, deduplicated square-boundary point list: the four corners
plus every graph node lying on the square boundary. -/
def boundaryPoints (g : Graph Vec2) : List Vec2 :=
  dedupConsec (stableSortBy (fun a b => perimKey a < perimKey b)
    (squareCorners ++ g.nodes.filter
      (fun p => qabs p.x = half || qabs p.y = half)))

/-- `node_map`: position → node index over the current nodes (positions are
pairwise distinct at this point, so first-wins lookup is exact). -/
def buildNodeMap (g : Graph Vec2) : List (Vec2 × Nat) :=
  (List.range g.nodes.length).map (fun n => (g.nodes.getD n default, n))

/-- `a < d/√n` for `n > 0`, decided exactly. -/
def ltQR (a d n : ℚ) : Bool :=
  if 0 ≤ d then (a < 0) || (qmul (qmul a a) n < qmul d d)
  else (a < 0) && (qmul d d < qmul (qmul a a) n)

/-- `d/√n < a` for `n > 0`, decided exactly. -/
def ltRQ (d n a : ℚ) : Bool :=
  if 0 ≤ d then (0 ≤ a) && (qmul d d < qmul (qmul a a) n)
  else (0 ≤ a) || (qmul (qmul a a) n < qmul d d)

/-- `d1/√n1 < d2/√n2` for `n1, n2 > 0`, decided exactly. -/
def ltRR (d1 n1 d2 n2 : ℚ) : Bool :=
  if 0 ≤ d1 then (0 ≤ d2) && (qmul (qmul d1 d1) n2 < qmul (qmul d2 d2) n1)
  else (0 ≤ d2) || (qmul (qmul d2 d2) n1 < qmul (qmul d1 d1) n2)

/-- The value `dot_fn` would compute in `f64`: either a plain constant (the
`unwrap_or` sentinel) or a normalized dot product `d/√n`. -/
inductive DotVal where
  | sent : ℚ → DotVal
  | cosv : ℚ → ℚ → DotVal
deriving DecidableEq, Repr

/-- Exact `<` on `DotVal`s. -/
def DotVal.lt : DotVal → DotVal → Bool
  | .sent a, .sent b => a < b
  | .sent a, .cosv d n => ltQR a d n
  | .cosv d n, .sent a => ltRQ d n a
  | .cosv d1 n1, .cosv d2 n2 => ltRR d1 n1 d2 n2

/-- Outgoing edges of `n` (`boundary.edges(n)`). -/
def outEdges (g : Graph Vec2) (n : Nat) : List (Nat × Nat) :=
  g.edges.filter (fun e => e.1 = n)

/-- Incoming edges of `n` (`boundary.edges_directed(n, Incoming)`). -/
def inEdges (g : Graph Vec2) (n : Nat) : List (Nat × Nat) :=
  g.edges.filter (fun e => e.2 = n)

/-- First-minimal fold (Rust's `Iterator::min` keeps the first of equal
minima; ties have equal value so the choice is immaterial). -/
def dotMinFold (l : List (ℚ × ℚ)) : Option (ℚ × ℚ) :=
  l.foldl
    (fun acc k =>
      match acc with
      | none => some k
      | some k' => if ltRR k.1 k.2 k'.1 k'.2 then some k else some k')
    none

/-- `dot_fn`: the minimum normalized dot of `vec` against the given edges,
as an exact `d/√n` pair (`d = (target−source)·vec`, `n = ‖target−source‖²`). -/
def dot_fn (g : Graph Vec2) (vec : Vec2) (edges : List (Nat × Nat)) :
    Option (ℚ × ℚ) :=
  dotMinFold (edges.map (fun e =>
    let d := (g.nodes.getD e.2 default).sub (g.nodes.getD e.1 default)
    (d.dot vec, d.sqnorm)))

/-- `dot_fn(..).unwrap_or(c)` as a `DotVal`. -/
def dotOr (v : Option (ℚ × ℚ)) (c : ℚ) : DotVal :=
  match v with
  | some dn => .cosv dn.1 dn.2
  | none => .sent c

/-- `Option<f64>` comparison (`None < Some(_)`), used by the outer-hole test. -/
def ltOptDot : Option (ℚ × ℚ) → Option (ℚ × ℚ) → Bool
  | none, none => false
  | none, some _ => true
  | some _, none => false
  | some a, some b => ltRR a.1 a.2 b.1 b.2

/-- The start-index search, stage a: a boundary point whose node needs an
outgoing edge (`outdegree < indegree`). -/
def findIndexStage1 (g : Graph Vec2) (nmap : List (Vec2 × Nat))
    (points : List Vec2) : Option Nat :=
  points.findIdx? (fun pos =>
    match alookup nmap pos with
    | some n => decide (g.outdegree n < g.indegree n)
    | none => false)

/-- Stage b: an even-degree vertex whose incoming alignment with the next
boundary direction is lower than the outgoing alignment of its negation. -/
def findIndexStage2 (g : Graph Vec2) (nmap : List (Vec2 × Nat))
    (points : List Vec2) : Option Nat :=
  (List.range points.length).findIdx? (fun i =>
    let pos := points.getD i default
    match alookup nmap pos with
    | some n =>
      let next := points.getD ((i + 1) % points.length) default
      let diff := next.sub pos
      decide (g.outdegree n = g.indegree n) &&
        DotVal.lt (dotOr (dot_fn g diff (inEdges g n)) (-2))
          (dotOr (dot_fn g diff.neg (outEdges g n)) (-1))
    | none => false)

/-- The walk state: the graph being mutated, the node map, and `inside`. -/
structure WalkState where
  graph : Graph Vec2
  nmap : List (Vec2 × Nat)
  inside : Bool

/-- `node_map.entry(pos).or_insert_with(|| boundary.add_node(pos))`. -/
def entryNode (g : Graph Vec2) (nmap : List (Vec2 × Nat)) (pos : Vec2) :
    Graph Vec2 × List (Vec2 × Nat) × Nat :=
  match alookup nmap pos with
  | some n => (g, nmap, n)
  | none =>
    let (g', n) := g.addNode pos
    (g', nmap ++ [(pos, n)], n)

/-- One iteration of the square-drawing do-while loop at position `i`. -/
def walkStep (points : List Vec2) (i : Nat) (s : WalkState) : WalkState :=
  let j := (i + 1) % points.length
  let pj := points.getD j default
  let newInside :=
    ((match alookup s.nmap pj with
      | some n => decide (s.graph.degree n % 2 ≠ 0)
      | none => false) : Bool) != s.inside
  if s.inside then
    let (g1, m1, ni) := entryNode s.graph s.nmap (points.getD i default)
    let (g2, m2, nj) := entryNode g1 m1 pj
    { graph := g2.addEdge ni nj, nmap := m2, inside := newInside }
  else
    { s with inside := newInside }

/-- The full walk: `points.length` iterations starting at `index` (the
do-while visits every `i` once before returning to `index`). -/
def walkSquare (points : List Vec2) (index : Nat) (g : Graph Vec2)
    (nmap : List (Vec2 × Nat)) : Graph Vec2 :=
  ((List.range points.length).foldl
    (fun s k => walkStep points ((index + k) % points.length) s)
    ⟨g, nmap, true⟩).graph

/-- The outer-hole branch: bottom-most (then right-most) vertex, and the
`dot(−x̂, out) < dot(+x̂, in)` comparison on `Option`s. -/
def outerHoleSquare (g : Graph Vec2) : Bool :=
  let node :=
    ((List.range g.nodes.length).foldl
      (fun (acc : Option Nat) n =>
        match acc with
        | none => some n
        | some n' =>
          let p := g.nodes.getD n default
          let p' := g.nodes.getD n' default
          if p.y < p'.y ∨ (p.y = p'.y ∧ -p.x < -p'.x) then some n else some n')
      none).getD 0
  ltOptDot (dot_fn g (vec2 (-1) 0) (outEdges g node))
    (dot_fn g (vec2 1 0) (inEdges g node))

/-- Add every boundary point as a fresh node and draw the full square cycle
through them (the outer-hole success path and the context fallback share
this shape; here the subdivision points are included). -/
def addSquareThroughPoints (g : Graph Vec2) (points : List Vec2) : Graph Vec2 :=
  let (g', idxs) := addNodesList g points
  addPathEdges g' (idxs ++ idxs.take 1)

/-- `MaterialMesh::intersect_center_unit_square_on_graph`.  Returns the
mutated graph and whether there was enough information to compute the
intersection. -/
def intersect_center_unit_square_on_graph (boundary : Graph Vec2) :
    Graph Vec2 × Bool :=
  let b1 := combine_equal_vertices boundary
  let b2 := b1.retainEdges slitKeep
  let (b3, ignoredCcw) := b2.retainEdgesFlag (ccwKeep b2.nodes)
  let b4 := b3.retainNodes (fun g n => decide (0 < g.degree n))
  let (b5, ignoredCw) := b4.retainEdgesFlag (cwKeep b4.nodes)
  if ignoredCcw ∧ ¬ignoredCw ∧ b5.edgeCount = 0 then
    (b5, true)
  else
    let nmap := buildNodeMap b5
    let points := boundaryPoints b5
    let index :=
      ((findIndexStage1 b5 nmap points).orElse
        (fun _ => findIndexStage2 b5 nmap points)).orElse
        (fun _ =>
          if b5.edgeCount = 0 ∧ ignoredCw ∧ ¬ignoredCcw then some 0 else none)
    match index with
    | some i => (walkSquare points i b5 nmap, true)
    | none =>
      if 0 < b5.edgeCount then
        (if outerHoleSquare b5 then addSquareThroughPoints b5 points else b5,
          true)
      else
        (b5, false)

/-!
## C4 groundwork: position-level characterization of the pipeline stages
-/

theorem mem_updateEdge {N : Type} (g : Graph N) (a b : Nat) (x : Nat × Nat) :
    x ∈ (g.updateEdge a b).edges ↔ x ∈ g.edges ∨ x = (a, b) := by
  rcases updateEdge_edges g a b with h | ⟨h, hnm⟩
  · rw [h]
    constructor
    · exact Or.inl
    · rintro (hx | hx)
      · exact hx
      · subst hx
        by_cases hin : (a, b) ∈ g.edges
        · exact hin
        · exfalso
          have := (findEdge_isSome g a b).not.mpr hin
          unfold Graph.updateEdge at h
          by_cases hs : (g.findEdge a b).isSome = true
          · exact this hs
          · simp only [hs, if_false, Graph.addEdge] at h
            have := congrArg List.length h
            simp at this
  · rw [h]
    simp [or_comm]

/-- Strengthened invariant for the node-merging fold: lookups return the
index of the position in the accumulated node list. -/
def CombineNodesInv2 (s : Graph Vec2 × List (Vec2 × Nat)) : Prop :=
  CombineNodesInv s ∧ ∀ p i, alookup s.2 p = some i → s.1.nodes.get? i = some p

theorem combineNodesStep_inv2 (s : Graph Vec2 × List (Vec2 × Nat)) (pos : Vec2)
    (h : CombineNodesInv2 s) : CombineNodesInv2 (combineNodesStep s pos) := by
  obtain ⟨hinv, hcorr⟩ := h
  refine ⟨combineNodesStep_inv s pos hinv, ?_⟩
  unfold combineNodesStep
  cases hcase : alookup s.2 pos with
  | some v => exact hcorr
  | none =>
    intro p i hlk
    simp only [Graph.addNode] at hlk ⊢
    by_cases hp : pos = p
    · subst hp
      simp only [alookup, if_pos rfl] at hlk
      cases hlk
      exact List.get?_concat_length _ _
    · simp only [alookup, if_neg hp] at hlk
      have hc := hcorr p i hlk
      obtain ⟨hi, -⟩ := List.get?_eq_some.mp hc
      rw [List.get?_append hi]
      exact hc

theorem combineNodes_inv2 (nodes : List Vec2) :
    CombineNodesInv2 (combineNodes nodes) := by
  unfold combineNodes
  apply foldl_invariant combineNodesStep CombineNodesInv2 combineNodesStep_inv2
  refine ⟨⟨List.nodup_nil, by simp [alookup, Graph.empty], rfl⟩, ?_⟩
  intro p i h
  simp [alookup] at h

theorem combineNodes_fold_nodes_mem :
    ∀ (l : List Vec2) (s : Graph Vec2 × List (Vec2 × Nat)),
      CombineNodesInv s → ∀ p : Vec2,
      (p ∈ (l.foldl combineNodesStep s).1.nodes ↔ p ∈ s.1.nodes ∨ p ∈ l) := by
  intro l
  induction l with
  | nil => intro s hs p; simp
  | cons pos l ih =>
    intro s hs p
    rw [List.foldl_cons]
    rw [ih _ (combineNodesStep_inv s pos hs)]
    obtain ⟨-, hlk, -⟩ := hs
    unfold combineNodesStep
    cases hcase : alookup s.2 pos with
    | some v =>
      have hpos : pos ∈ s.1.nodes := (hlk pos).mp (by rw [hcase]; rfl)
      simp only [List.mem_cons]
      constructor
      · tauto
      · rintro (h | h | h)
        · exact Or.inl h
        · exact Or.inl (h ▸ hpos)
        · exact Or.inr h
    | none =>
      simp only [Graph.addNode, List.mem_append, List.mem_singleton,
        List.mem_cons]
      tauto

theorem combineNodes_mem (nodes : List Vec2) (p : Vec2) :
    p ∈ (combineNodes nodes).1.nodes ↔ p ∈ nodes := by
  have := combineNodes_fold_nodes_mem nodes (Graph.empty, [])
    ⟨List.nodup_nil, by simp [alookup, Graph.empty], rfl⟩ p
  simpa [Graph.empty, combineNodes] using this

theorem combineEdgesStep_mem (boundary : Graph Vec2) (posMap : List (Vec2 × Nat))
    (res : Graph Vec2) (e : Nat × Nat) (x : Nat × Nat) :
    x ∈ (combineEdgesStep boundary posMap res e).edges ↔
      x ∈ res.edges ∨
        (combIdx boundary posMap e = some x ∧ x.1 ≠ x.2) := by
  unfold combineEdgesStep
  cases hidx : combIdx boundary posMap e with
  | none => simp
  | some pair =>
    obtain ⟨i0, i1⟩ := pair
    dsimp only
    by_cases hii : i0 ≠ i1
    · rw [if_pos hii]
      simp only [mem_updateEdge, Option.some_inj]
      constructor
      · rintro (h | h)
        · exact Or.inl h
        · exact Or.inr ⟨h.symm ▸ rfl, h ▸ hii⟩
      · rintro (h | ⟨h, hne⟩)
        · exact Or.inl h
        · exact Or.inr h.symm
    · rw [if_neg hii]
      constructor
      · exact Or.inl
      · rintro (h | ⟨h, hne⟩)
        · exact h
        · cases h
          exact absurd hii (by simpa using hne)

theorem combineEdges_fold_mem (boundary : Graph Vec2)
    (posMap : List (Vec2 × Nat)) :
    ∀ (l : List (Nat × Nat)) (res : Graph Vec2) (x : Nat × Nat),
      x ∈ (l.foldl (combineEdgesStep boundary posMap) res).edges ↔
        x ∈ res.edges ∨
          ∃ e ∈ l, combIdx boundary posMap e = some x ∧ x.1 ≠ x.2 := by
  intro l
  induction l with
  | nil => intro res x; simp
  | cons e l ih =>
    intro res x
    rw [List.foldl_cons, ih, combineEdgesStep_mem]
    simp only [List.mem_cons]
    constructor
    · rintro ((h | h) | ⟨e', he', h⟩)
      · exact Or.inl h
      · exact Or.inr ⟨e, Or.inl rfl, h⟩
      · exact Or.inr ⟨e', Or.inr he', h⟩
    · rintro (h | ⟨e', he' | he', h⟩)
      · exact Or.inl (Or.inl h)
      · exact Or.inl (Or.inr (he' ▸ h))
      · exact Or.inr ⟨e', he', h⟩

theorem combine_edges_mem (g : Graph Vec2) (x : Nat × Nat) :
    x ∈ (combine_equal_vertices g).edges ↔
      ∃ e ∈ g.edges,
        combIdx g (combineNodes g.nodes).2 e = some x ∧ x.1 ≠ x.2 := by
  unfold combine_equal_vertices
  rw [combineEdges_fold_mem]
  obtain ⟨-, -, hed⟩ := combineNodes_inv (g.nodes)
  rw [hed]
  simp

theorem combine_nodes_eq (g : Graph Vec2) :
    (combine_equal_vertices g).nodes = (combineNodes g.nodes).1.nodes :=
  (combine_equal_vertices_inv g).1

theorem idxOf?_get {α : Type} [DecidableEq α] :
    ∀ (l : List α) (a : α) (i : Nat), idxOf? l a = some i → l.get? i = some a := by
  intro l
  induction l with
  | nil => intro a i h; exact absurd h (by simp [idxOf?])
  | cons b l ih =>
    intro a i h
    by_cases hb : b = a
    · subst hb
      simp only [idxOf?, if_pos rfl] at h
      rw [← Option.some_inj.mp h]
      rfl
    · simp only [idxOf?, if_neg hb] at h
      rcases Option.map_eq_some'.mp h with ⟨j, hj, hji⟩
      rw [← hji]
      simpa using ih a j hj

theorem idxOf?_isSome {α : Type} [DecidableEq α] :
    ∀ (l : List α) (a : α), a ∈ l → (idxOf? l a).isSome = true := by
  intro l
  induction l with
  | nil => intro a h; simp at h
  | cons b l ih =>
    intro a h
    by_cases hb : b = a
    · simp [idxOf?, hb]
    · rcases List.mem_cons.mp h with h' | h'
      · exact absurd h'.symm hb
      · simp only [idxOf?, if_neg hb]
        have hs := ih a h'
        cases hcase : idxOf? l a with
        | none => rw [hcase] at hs; simp at hs
        | some j => simp

theorem one_lt_length_of_two_mem {α : Type} {l : List α} {a b : α}
    (ha : a ∈ l) (hb : b ∈ l) (hab : a ≠ b) : 1 < l.length := by
  match l with
  | [] => simp at ha
  | [x] =>
    simp only [List.mem_singleton] at ha hb
    exact absurd (ha.trans hb.symm) hab
  | x :: y :: t => simp only [List.length_cons]; omega

theorem retainEdgesAux_id {N : Type} (visit : Graph N → Nat × Nat → Bool)
    (g : Graph N) (h : ∀ e ∈ g.edges, visit g e = true) :
    ∀ fuel, Graph.retainEdgesAux visit fuel g = g := by
  intro fuel
  induction fuel with
  | zero => rfl
  | succ i ih =>
    cases hc : g.edges.get? i with
    | none =>
      simp only [Graph.retainEdgesAux, hc]
      exact ih
    | some e =>
      simp only [Graph.retainEdgesAux, hc, h e (List.get?_mem hc), if_true]
      exact ih

theorem retainEdges_id {N : Type} (g : Graph N)
    (visit : Graph N → Nat × Nat → Bool)
    (h : ∀ e ∈ g.edges, visit g e = true) : g.retainEdges visit = g :=
  retainEdgesAux_id visit g h g.edges.length

theorem retainEdgesFlagAux_keepAll {N : Type} (keep : Nat × Nat → Bool)
    (g : Graph N) (h : ∀ e ∈ g.edges, keep e = true) :
    ∀ fuel flag, Graph.retainEdgesFlagAux keep fuel (g, flag) = (g, flag) := by
  intro fuel
  induction fuel with
  | zero => intro flag; rfl
  | succ i ih =>
    intro flag
    cases hc : g.edges.get? i with
    | none =>
      simp only [Graph.retainEdgesFlagAux, hc]
      exact ih flag
    | some e =>
      simp only [Graph.retainEdgesFlagAux, hc, h e (List.get?_mem hc), if_true]
      exact ih flag

theorem retainEdgesFlag_keepAll {N : Type} (g : Graph N)
    (keep : Nat × Nat → Bool) (h : ∀ e ∈ g.edges, keep e = true) :
    g.retainEdgesFlag keep = (g, false) :=
  retainEdgesFlagAux_keepAll keep g h g.edges.length false

theorem removeEdgeSwap_last (es : List (Nat × Nat)) (n : Nat)
    (h : es.length = n + 1) : Graph.removeEdgeSwap es n = es.dropLast := by
  have hne : es ≠ [] := by
    intro he; rw [he] at h; simp at h
  obtain ⟨last, hl⟩ :=
    Option.isSome_iff_exists.mp (List.getLast?_isSome.mpr hne)
  have hfl : es.dropLast.length = n := by
    rw [List.length_dropLast, h]
    omega
  simp only [Graph.removeEdgeSwap, hl, hfl]
  rw [if_neg (Nat.lt_irrefl n)]

theorem retainEdgesFlagAux_removeAll {N : Type} (keep : Nat × Nat → Bool) :
    ∀ (fuel : Nat) (g : Graph N) (flag : Bool),
      g.edges.length = fuel → (∀ e ∈ g.edges, keep e = false) →
      Graph.retainEdgesFlagAux keep fuel (g, flag) =
        (⟨g.nodes, []⟩, flag || decide (0 < fuel)) := by
  intro fuel
  induction fuel with
  | zero =>
    intro g flag hlen _
    have hnil : g.edges = [] := List.length_eq_zero.mp hlen
    show (g, flag) = _
    cases g
    simp_all
  | succ i ih =>
    intro g flag hlen hkeep
    have hilt : i < g.edges.length := by omega
    have hc := List.get?_eq_get hilt
    have hm : g.edges.get ⟨i, hilt⟩ ∈ g.edges := List.get_mem _ _ _
    simp only [Graph.retainEdgesFlagAux, hc, hkeep _ hm, Bool.false_eq_true,
      if_false]
    rw [removeEdgeSwap_last g.edges i hlen]
    have hsub : ∀ e ∈ g.edges.dropLast, keep e = false := fun e he =>
      hkeep e ((List.dropLast_sublist g.edges).subset he)
    have hdl : (Graph.mk g.nodes g.edges.dropLast : Graph N).edges.length = i := by
      simp [List.length_dropLast, hlen]
    rw [ih ⟨g.nodes, g.edges.dropLast⟩ true hdl hsub]
    simp

theorem retainEdgesFlag_removeAll {N : Type} (g : Graph N)
    (keep : Nat × Nat → Bool) (h : ∀ e ∈ g.edges, keep e = false) :
    g.retainEdgesFlag keep = (⟨g.nodes, []⟩, decide (0 < g.edges.length)) := by
  have := retainEdgesFlagAux_removeAll keep g.edges.length g false rfl h
  simpa using this

theorem filterMap_get?_index {α : Type} (L : List α) :
    ∀ (ki : List Nat), (∀ n ∈ ki, n < L.length) →
      ∀ j, (ki.filterMap L.get?).get? j = (ki.get? j).bind L.get? := by
  intro ki
  induction ki with
  | nil => intro _ j; simp
  | cons n ki ih =>
    intro h j
    have hn : n < L.length := h n (List.mem_cons_self n ki)
    have hv := List.get?_eq_get hn
    rw [List.filterMap_cons_some hv]
    cases j with
    | zero => simp [hv]
    | succ j =>
      simp only [List.get?_cons_succ]
      exact ih (fun m hm => h m (List.mem_cons_of_mem n hm)) j

theorem filterMap_get?_nodup {α : Type} (L : List α) (hL : L.Nodup) :
    ∀ (ki : List Nat), ki.Nodup → (ki.filterMap L.get?).Nodup := by
  intro ki
  induction ki with
  | nil => intro _; simp
  | cons n ki ih =>
    intro hnd
    rw [List.nodup_cons] at hnd
    obtain ⟨hn, hki⟩ := hnd
    cases hv : L.get? n with
    | none => rw [List.filterMap_cons_none hv]; exact ih hki
    | some v =>
      rw [List.filterMap_cons_some hv, List.nodup_cons]
      refine ⟨?_, ih hki⟩
      intro hmem
      rcases List.mem_filterMap.mp hmem with ⟨m, hm, hget⟩
      have hlt : n < L.length := (List.get?_eq_some.mp hv).1
      have : n = m := List.get?_inj hlt hL (hv.trans hget.symm)
      exact hn (this ▸ hm)

theorem filterMap_eq_map_of_some {α β : Type} (f : α → Option β) (d : β) :
    ∀ (l : List α), (∀ x ∈ l, (f x).isSome = true) →
      l.filterMap f = l.map (fun x => (f x).getD d) := by
  intro l
  induction l with
  | nil => intro _; rfl
  | cons a l ih =>
    intro h
    obtain ⟨b, hb⟩ :=
      Option.isSome_iff_exists.mp (h a (List.mem_cons_self a l))
    rw [List.filterMap_cons_some hb, List.map_cons,
      ih (fun x hx => h x (List.mem_cons_of_mem a hx)), hb]
    rfl

/-- `retain_nodes` unfolded (the kept-index/renumbering form). -/
theorem retainNodes_def {N : Type} (g : Graph N) (keep : Graph N → Nat → Bool) :
    g.retainNodes keep =
      { nodes := ((List.range g.nodes.length).filter (keep g)).filterMap
          g.nodes.get?
        edges := g.edges.filterMap (fun e =>
          match idxOf? ((List.range g.nodes.length).filter (keep g)) e.1,
              idxOf? ((List.range g.nodes.length).filter (keep g)) e.2 with
          | some a, some b => some (a, b)
          | _, _ => none) } := rfl

theorem degree_pos_left {N : Type} (g : Graph N) (e : Nat × Nat)
    (he : e ∈ g.edges) : 0 < g.degree e.1 := by
  have : e ∈ g.edges.filter (fun x => decide (x.1 = e.1)) :=
    List.mem_filter.mpr ⟨he, by simp⟩
  have hlen := List.length_pos.mpr (List.ne_nil_of_mem this)
  unfold Graph.degree Graph.outdegree
  omega

theorem degree_pos_right {N : Type} (g : Graph N) (e : Nat × Nat)
    (he : e ∈ g.edges) : 0 < g.degree e.2 := by
  have : e ∈ g.edges.filter (fun x => decide (x.2 = e.2)) :=
    List.mem_filter.mpr ⟨he, by simp⟩
  have hlen := List.length_pos.mpr (List.ne_nil_of_mem this)
  unfold Graph.degree Graph.indegree
  omega

theorem degree_eq_zero_of_no_incidence {N : Type} (g : Graph N) (n : Nat)
    (h : ∀ e ∈ g.edges, e.1 ≠ n ∧ e.2 ≠ n) : g.degree n = 0 := by
  unfold Graph.degree Graph.indegree Graph.outdegree
  rw [List.filter_eq_nil.mpr (fun e he => by simpa using (h e he).2),
    List.filter_eq_nil.mpr (fun e he => by simpa using (h e he).1)]
  rfl

theorem filterMap_eq_map_of_eq_some {α β : Type} (f : α → Option β)
    (F : α → β) :
    ∀ (l : List α), (∀ x ∈ l, f x = some (F x)) → l.filterMap f = l.map F := by
  intro l
  induction l with
  | nil => intro _; rfl
  | cons a l ih =>
    intro h
    rw [List.filterMap_cons_some (h a (List.mem_cons_self a l)), List.map_cons,
      ih (fun x hx => h x (List.mem_cons_of_mem a hx))]

/-- The kept node slots of the lone-vertex removal pass. -/
def keptDegIdx {N : Type} (g : Graph N) : List Nat :=
  (List.range g.nodes.length).filter (fun m => decide (0 < g.degree m))

/-- The node renumbering of the lone-vertex removal pass. -/
def renumDeg {N : Type} (g : Graph N) (n : Nat) : Nat :=
  (idxOf? (keptDegIdx g) n).getD 0

/-- A node of positive degree keeps a slot under the lone-vertex removal,
with its position intact. -/
theorem retainNodes_keep_endpoint {N : Type} (g : Graph N)
    (n : Nat) (hn : n < g.nodes.length) (hdeg : 0 < g.degree n) :
    ∃ a, idxOf? ((List.range g.nodes.length).filter
        (fun m => decide (0 < g.degree m))) n = some a ∧
      (g.retainNodes (fun h m => decide (0 < h.degree m))).nodes.get? a =
        g.nodes.get? n := by
  have hmem : n ∈ (List.range g.nodes.length).filter
      (fun m => decide (0 < g.degree m)) :=
    List.mem_filter.mpr ⟨List.mem_range.mpr hn, by simpa using hdeg⟩
  obtain ⟨a, ha⟩ := Option.isSome_iff_exists.mp (idxOf?_isSome _ n hmem)
  refine ⟨a, ha, ?_⟩
  rw [retainNodes_def]
  dsimp only
  rw [filterMap_get?_index g.nodes _
      (fun m hm => List.mem_range.mp (List.mem_filter.mp hm).1) a,
    idxOf?_get _ _ _ ha]
  rfl

theorem renumDeg_spec {N : Type} (g : Graph N) (n : Nat)
    (hn : n < g.nodes.length) (hdeg : 0 < g.degree n) :
    idxOf? (keptDegIdx g) n = some (renumDeg g n) ∧
      (g.retainNodes (fun h m => decide (0 < h.degree m))).nodes.get?
          (renumDeg g n) = g.nodes.get? n := by
  obtain ⟨a, ha, hpos⟩ := retainNodes_keep_endpoint g n hn hdeg
  have hk : idxOf? (keptDegIdx g) n = some a := ha
  have hr : renumDeg g n = a := by rw [renumDeg, hk]; rfl
  rw [hr]
  exact ⟨hk, hpos⟩

/-- The lone-vertex removal keeps every edge, renumbered by `renumDeg`. -/
theorem retainNodes_degree_edges {N : Type} (g : Graph N) (hwf : g.WF) :
    (g.retainNodes (fun h m => decide (0 < h.degree m))).edges =
      g.edges.map (fun e => (renumDeg g e.1, renumDeg g e.2)) := by
  rw [retainNodes_def]
  apply filterMap_eq_map_of_eq_some
  intro e he
  obtain ⟨h1, h2⟩ := hwf e he
  obtain ⟨hk1, -⟩ := renumDeg_spec g e.1 h1 (degree_pos_left g e he)
  obtain ⟨hk2, -⟩ := renumDeg_spec g e.2 h2 (degree_pos_right g e he)
  have hk1' : idxOf? ((List.range g.nodes.length).filter
      ((fun h m => decide (0 < h.degree m)) g)) e.1 = some (renumDeg g e.1) := hk1
  have hk2' : idxOf? ((List.range g.nodes.length).filter
      ((fun h m => decide (0 < h.degree m)) g)) e.2 = some (renumDeg g e.2) := hk2
  rw [hk1', hk2']

theorem retainNodes_degree_nodes_mem {N : Type} (g : Graph N) (p : N)
    (hp : p ∈ (g.retainNodes (fun h m => decide (0 < h.degree m))).nodes) :
    ∃ n, g.nodes.get? n = some p ∧ 0 < g.degree n := by
  rw [retainNodes_def] at hp
  dsimp only at hp
  rcases List.mem_filterMap.mp hp with ⟨n, hn, hget⟩
  rcases List.mem_filter.mp hn with ⟨-, hdeg⟩
  exact ⟨n, hget, by simpa using hdeg⟩

theorem retainNodes_nodes_nodup {N : Type} (g : Graph N)
    (keep : Graph N → Nat → Bool) (h : g.nodes.Nodup) :
    (g.retainNodes keep).nodes.Nodup := by
  rw [retainNodes_def]
  exact filterMap_get?_nodup g.nodes h _
    (List.Nodup.filter _ (List.nodup_range _))

/-- Every merged edge keeps the endpoint positions of a source edge. -/
theorem combine_edge_src (g : Graph Vec2) (x : Nat × Nat)
    (hx : x ∈ (combine_equal_vertices g).edges) :
    ∃ e ∈ g.edges, ∃ p0 p1,
      g.nodes.get? e.1 = some p0 ∧ g.nodes.get? e.2 = some p1 ∧
      (combine_equal_vertices g).nodes.get? x.1 = some p0 ∧
      (combine_equal_vertices g).nodes.get? x.2 = some p1 ∧
      x.1 ≠ x.2 := by
  rcases (combine_edges_mem g x).mp hx with ⟨e, he, hidx, hne⟩
  unfold combIdx at hidx
  cases h0 : g.nodes.get? e.1 with
  | none => rw [h0] at hidx; simp at hidx
  | some p0 =>
    rw [h0] at hidx
    cases h1 : g.nodes.get? e.2 with
    | none => rw [h1] at hidx; simp at hidx
    | some p1 =>
      rw [h1] at hidx
      simp only [Option.some_bind] at hidx
      cases ha0 : alookup (combineNodes g.nodes).2 p0 with
      | none => rw [ha0] at hidx; simp at hidx
      | some i0 =>
        rw [ha0] at hidx
        cases ha1 : alookup (combineNodes g.nodes).2 p1 with
        | none => rw [ha1] at hidx; simp at hidx
        | some i1 =>
          rw [ha1] at hidx
          simp only [Option.some_bind, Option.map_some', Option.some_inj]
            at hidx
          obtain ⟨-, hc⟩ := combineNodes_inv2 g.nodes
          refine ⟨e, he, p0, p1, h0, h1, ?_, ?_, hne⟩
          · rw [combine_nodes_eq, ← hidx]
            exact hc p0 i0 ha0
          · rw [combine_nodes_eq, ← hidx]
            exact hc p1 i1 ha1

/-- `combine_equal_vertices` keeps every edge-endpoint index valid. -/
theorem combine_WF (g : Graph Vec2) : (combine_equal_vertices g).WF := by
  intro x hx
  rcases combine_edge_src g x hx with ⟨e, he, p0, p1, -, -, hc0, hc1, -⟩
  exact ⟨(List.get?_eq_some.mp hc0).1, (List.get?_eq_some.mp hc1).1⟩

/-- A property of endpoint positions transfers from the input edges to the
merged edges. -/
theorem combine_edgeProp (g : Graph Vec2) (P : Vec2 → Vec2 → Prop)
    (hP : ∀ e ∈ g.edges,
      P (g.nodes.getD e.1 default) (g.nodes.getD e.2 default)) :
    ∀ x ∈ (combine_equal_vertices g).edges,
      P ((combine_equal_vertices g).nodes.getD x.1 default)
        ((combine_equal_vertices g).nodes.getD x.2 default) := by
  intro x hx
  rcases combine_edge_src g x hx with ⟨e, he, p0, p1, h0, h1, hc0, hc1, -⟩
  have := hP e he
  rw [List.getD_eq_get?, List.getD_eq_get?, h0, h1] at this
  rw [List.getD_eq_get?, List.getD_eq_get?, hc0, hc1]
  exact this

/-- With distinct endpoint positions on every edge, at least one edge
survives the merge. -/
theorem combine_edges_ne_nil (g : Graph Vec2) (hwf : g.WF)
    (hne : g.edges ≠ [])
    (hdist : ∀ e ∈ g.edges,
      g.nodes.getD e.1 default ≠ g.nodes.getD e.2 default) :
    (combine_equal_vertices g).edges ≠ [] := by
  obtain ⟨e, he⟩ := List.exists_mem_of_ne_nil g.edges hne
  obtain ⟨l1, l2⟩ := hwf e he
  have h0 := List.get?_eq_get l1
  have h1 := List.get?_eq_get l2
  obtain ⟨hinv, hc⟩ := combineNodes_inv2 g.nodes
  obtain ⟨-, hlk, -⟩ := hinv
  have hm0 : g.nodes.get ⟨e.1, l1⟩ ∈ (combineNodes g.nodes).1.nodes :=
    (combineNodes_mem _ _).mpr (List.get_mem _ _ _)
  have hm1 : g.nodes.get ⟨e.2, l2⟩ ∈ (combineNodes g.nodes).1.nodes :=
    (combineNodes_mem _ _).mpr (List.get_mem _ _ _)
  obtain ⟨i0, ha0⟩ := Option.isSome_iff_exists.mp ((hlk _).mpr hm0)
  obtain ⟨i1, ha1⟩ := Option.isSome_iff_exists.mp ((hlk _).mpr hm1)
  have hii : i0 ≠ i1 := by
    intro hcontra
    have hg0 := hc _ i0 ha0
    have hg1 := hc _ i1 ha1
    rw [hcontra, hg1] at hg0
    have hd := hdist e he
    rw [List.getD_eq_get?, List.getD_eq_get?, h0, h1] at hd
    exact hd (Option.some_inj.mp hg0.symm)
  have hcomb : combIdx g (combineNodes g.nodes).2 e = some (i0, i1) := by
    unfold combIdx
    rw [h0, h1]
    simp only [Option.some_bind]
    rw [ha0]
    simp only [Option.some_bind]
    rw [ha1, Option.map_some']
  have hmem : (i0, i1) ∈ (combine_equal_vertices g).edges :=
    (combine_edges_mem g _).mpr ⟨e, he, hcomb, hii⟩
  exact List.ne_nil_of_mem hmem

theorem perp_dot_self (p : Vec2) : p.perp_dot p = 0 := by
  rw [Vec2.perp_dot_def]; ring

theorem perp_dot_antisymm (p q : Vec2) : p.perp_dot q = -(q.perp_dot p) := by
  rw [Vec2.perp_dot_def, Vec2.perp_dot_def]; ring

/-- No slit can exist when every edge winds strictly negatively. -/
theorem retainEdges_slit_id_neg (g : Graph Vec2)
    (h : ∀ x ∈ g.edges,
      (g.nodes.getD x.1 default).perp_dot (g.nodes.getD x.2 default) < 0) :
    g.retainEdges slitKeep = g := by
  apply retainEdges_id
  intro e he
  have hrev : (e.2, e.1) ∉ g.edges := by
    intro hmem
    have h1 := h e he
    have h2 := h (e.2, e.1) hmem
    rw [perp_dot_antisymm] at h2
    dsimp only at h2
    linarith
  unfold slitKeep
  cases hfe : g.findEdge e.2 e.1 with
  | none => rfl
  | some k =>
    exact absurd ((findEdge_isSome g e.2 e.1).mp (by rw [hfe]; rfl)) hrev

/-- No slit can exist when every edge winds strictly positively. -/
theorem retainEdges_slit_id_pos (g : Graph Vec2)
    (h : ∀ x ∈ g.edges,
      0 < (g.nodes.getD x.1 default).perp_dot (g.nodes.getD x.2 default)) :
    g.retainEdges slitKeep = g := by
  apply retainEdges_id
  intro e he
  have hrev : (e.2, e.1) ∉ g.edges := by
    intro hmem
    have h1 := h e he
    have h2 := h (e.2, e.1) hmem
    rw [perp_dot_antisymm] at h2
    dsimp only at h2
    linarith
  unfold slitKeep
  cases hfe : g.findEdge e.2 e.1 with
  | none => rfl
  | some k =>
    exact absurd ((findEdge_isSome g e.2 e.1).mp (by rw [hfe]; rfl)) hrev

theorem ccwKeep_false (nodes : List Vec2) (e : Nat × Nat)
    (hb : onSquareBoundary (nodes.getD e.1 default) (nodes.getD e.2 default)
      = true)
    (hp : 0 < (nodes.getD e.1 default).perp_dot (nodes.getD e.2 default)) :
    ccwKeep nodes e = false := by
  simp only [List.getD_eq_getElem?_getD] at hb hp
  simp [ccwKeep, hb, hp]

theorem ccwKeep_true_of_neg (nodes : List Vec2) (e : Nat × Nat)
    (hp : (nodes.getD e.1 default).perp_dot (nodes.getD e.2 default) < 0) :
    ccwKeep nodes e = true := by
  have h' : ¬ (0 < (nodes.getD e.1 default).perp_dot (nodes.getD e.2 default))
    := by linarith
  simp only [List.getD_eq_getElem?_getD] at h'
  simp [ccwKeep, h']

theorem cwKeep_false (nodes : List Vec2) (e : Nat × Nat)
    (hb : onSquareBoundary (nodes.getD e.1 default) (nodes.getD e.2 default)
      = true) :
    cwKeep nodes e = false := by
  simp only [List.getD_eq_getElem?_getD] at hb
  simp [cwKeep, hb]

/-- With no edges, the lone-vertex removal empties the graph. -/
theorem retainNodes_no_edges {N : Type} (nds : List N) :
    (Graph.mk nds [] : Graph N).retainNodes
      (fun h n => decide (0 < h.degree n)) = ⟨[], []⟩ := by
  rw [retainNodes_def]
  have hfil : (List.range nds.length).filter
      ((fun (h : Graph N) n => decide (0 < h.degree n)) (Graph.mk nds [])) =
      [] := by
    apply List.filter_eq_nil.mpr
    intro m _
    simp [Graph.degree, Graph.indegree, Graph.outdegree]
  rw [hfil]
  rfl

theorem retainEdgesFlag_nil {N : Type} (nds : List N)
    (keep : Nat × Nat → Bool) :
    (Graph.mk nds [] : Graph N).retainEdgesFlag keep = (⟨nds, []⟩, false) :=
  rfl

theorem mem_insertSorted {α : Type} (lt : α → α → Bool) (a x : α) :
    ∀ l, x ∈ insertSorted lt a l ↔ x = a ∨ x ∈ l := by
  intro l
  induction l with
  | nil => simp [insertSorted]
  | cons b rest ih =>
    by_cases h : lt a b
    · simp only [insertSorted, if_pos h, List.mem_cons]
    · simp only [insertSorted, if_neg h, List.mem_cons, ih]
      tauto

theorem mem_stableSortBy_fold {α : Type} (lt : α → α → Bool) :
    ∀ (l acc : List α) (x : α),
      x ∈ l.foldl (fun acc a => insertSorted lt a acc) acc ↔
        x ∈ acc ∨ x ∈ l := by
  intro l
  induction l with
  | nil => simp
  | cons a l ih =>
    intro acc x
    rw [List.foldl_cons, ih, mem_insertSorted]
    simp only [List.mem_cons]
    tauto

theorem mem_stableSortBy {α : Type} (lt : α → α → Bool) (l : List α) (x : α) :
    x ∈ stableSortBy lt l ↔ x ∈ l := by
  unfold stableSortBy
  rw [mem_stableSortBy_fold]
  simp

theorem pairwise_insertSorted {α : Type} (key : α → ℚ) (a : α) :
    ∀ l, l.Pairwise (fun x y => key x ≤ key y) →
      (insertSorted (fun x y => decide (key x < key y)) a l).Pairwise
        (fun x y => key x ≤ key y) := by
  intro l
  induction l with
  | nil => intro _; simp [insertSorted]
  | cons b rest ih =>
    intro hp
    rw [List.pairwise_cons] at hp
    obtain ⟨hb, hrest⟩ := hp
    by_cases h : (fun x y => decide (key x < key y)) a b = true
    · rw [insertSorted, if_pos h]
      have hab : key a ≤ key b := le_of_lt (of_decide_eq_true h)
      rw [List.pairwise_cons]
      refine ⟨?_, List.pairwise_cons.mpr ⟨hb, hrest⟩⟩
      intro x hx
      rcases List.mem_cons.mp hx with rfl | hx'
      · exact hab
      · exact hab.trans (hb x hx')
    · rw [insertSorted, if_neg h]
      rw [List.pairwise_cons]
      refine ⟨?_, ih hrest⟩
      intro x hx
      rcases (mem_insertSorted _ _ _ rest).mp hx with rfl | hx'
      · exact le_of_not_lt (fun hlt => h (decide_eq_true hlt))
      · exact hb x hx'

theorem pairwise_stableSortBy {α : Type} (key : α → ℚ) (l : List α) :
    (stableSortBy (fun x y => decide (key x < key y)) l).Pairwise
      (fun x y => key x ≤ key y) := by
  unfold stableSortBy
  exact foldl_invariant _ _ (fun s a hs => pairwise_insertSorted key a s hs)
    l [] List.Pairwise.nil

theorem mem_dedupConsecAux :
    ∀ (l : List Vec2) (prev x : Vec2),
      x ∈ prev :: dedupConsecAux prev l ↔ x ∈ prev :: l := by
  intro l
  induction l with
  | nil => intro prev x; rfl
  | cons b rest ih =>
    intro prev x
    by_cases h : prev = b
    · rw [dedupConsecAux, if_pos h, ih]
      subst h
      simp only [List.mem_cons]
      tauto
    · rw [dedupConsecAux, if_neg h]
      have hbx := ih b x
      simp only [List.mem_cons] at hbx ⊢
      tauto

theorem mem_dedupConsec (l : List Vec2) (x : Vec2) :
    x ∈ dedupConsec l ↔ x ∈ l := by
  cases l with
  | nil => simp [dedupConsec]
  | cons a rest =>
    rw [dedupConsec]
    exact mem_dedupConsecAux rest a x

theorem dedupConsecAux_strict (key : Vec2 → ℚ) :
    ∀ (l : List Vec2) (prev : Vec2),
      (prev :: l).Pairwise (fun x y => key x ≤ key y) →
      (∀ x ∈ prev :: l, ∀ y ∈ prev :: l, key x = key y → x = y) →
      (prev :: dedupConsecAux prev l).Pairwise
        (fun x y => key x < key y) := by
  intro l
  induction l with
  | nil => intro prev _ _; simp [dedupConsecAux]
  | cons b rest ih =>
    intro prev hp hinj
    rw [List.pairwise_cons] at hp
    obtain ⟨hprev, hp'⟩ := hp
    by_cases h : prev = b
    · rw [dedupConsecAux, if_pos h]
      apply ih prev
      · rw [List.pairwise_cons]
        exact ⟨fun x hx => hprev x (List.mem_cons_of_mem b hx),
          (List.pairwise_cons.mp hp').2⟩
      · intro x hx y hy
        have hx' : x ∈ prev :: b :: rest := by
          rcases List.mem_cons.mp hx with rfl | hx''
          · exact List.mem_cons_self _ _
          · exact List.mem_cons_of_mem _ (List.mem_cons_of_mem _ hx'')
        have hy' : y ∈ prev :: b :: rest := by
          rcases List.mem_cons.mp hy with rfl | hy''
          · exact List.mem_cons_self _ _
          · exact List.mem_cons_of_mem _ (List.mem_cons_of_mem _ hy'')
        exact hinj x hx' y hy'
    · rw [dedupConsecAux, if_neg h]
      have hmemb : b ∈ prev :: b :: rest :=
        List.mem_cons_of_mem _ (List.mem_cons_self _ _)
      have hmemprev : prev ∈ prev :: b :: rest := List.mem_cons_self _ _
      have hblt : key prev < key b := by
        rcases lt_or_eq_of_le (hprev b (List.mem_cons_self b rest)) with
          hlt | heq
        · exact hlt
        · exact absurd (hinj prev hmemprev b hmemb heq) h
      have hihres := ih b hp' (fun x hx y hy hk =>
        hinj x (List.mem_cons_of_mem prev hx) y
          (List.mem_cons_of_mem prev hy) hk)
      rw [List.pairwise_cons]
      refine ⟨?_, hihres⟩
      intro x hx
      rcases List.mem_cons.mp hx with rfl | hx'
      · exact hblt
      · have hxm : x ∈ b :: rest :=
          (mem_dedupConsecAux rest b x).mp (List.mem_cons_of_mem b hx')
        rcases List.mem_cons.mp hxm with rfl | hxr
        · exact hblt
        · have hle : key prev ≤ key x :=
            hprev x (List.mem_cons_of_mem b hxr)
          rcases lt_or_eq_of_le hle with hlt | heq
          · exact hlt
          · exfalso
            have hxprev : x = prev :=
              hinj x (List.mem_cons_of_mem prev
                (List.mem_cons_of_mem b hxr)) prev hmemprev heq.symm
            subst hxprev
            have hbx : key b ≤ key x :=
              (List.pairwise_cons.mp hp').1 x hxr
            have : key x = key b :=
              le_antisymm (hprev b (List.mem_cons_self b rest)) hbx
            exact h (hinj x hmemprev b hmemb this)

theorem dedupConsec_strict (key : Vec2 → ℚ) (l : List Vec2)
    (hp : l.Pairwise (fun x y => key x ≤ key y))
    (hinj : ∀ x ∈ l, ∀ y ∈ l, key x = key y → x = y) :
    (dedupConsec l).Pairwise (fun x y => key x < key y) := by
  cases l with
  | nil => simp [dedupConsec]
  | cons a rest =>
    rw [dedupConsec]
    exact dedupConsecAux_strict key rest a hp hinj

theorem dedupConsec_nodup (key : Vec2 → ℚ) (l : List Vec2)
    (hp : l.Pairwise (fun x y => key x ≤ key y))
    (hinj : ∀ x ∈ l, ∀ y ∈ l, key x = key y → x = y) :
    (dedupConsec l).Nodup :=
  (dedupConsec_strict key l hp hinj).imp
    (fun hlt heq => absurd (heq ▸ hlt) (lt_irrefl _))

/-- A point of the closed unit square centered at the origin. -/
def inSquare (p : Vec2) : Prop :=
  -half ≤ p.x ∧ p.x ≤ half ∧ -half ≤ p.y ∧ p.y ≤ half

/-- The claim's "edge on the square's boundary going counterclockwise":
a shared coordinate equal to ±0.5 and positive winding. -/
def CcwEdge (g : Graph Vec2) (e : Nat × Nat) : Prop :=
  onSquareBoundary (g.nodes.getD e.1 default) (g.nodes.getD e.2 default)
      = true ∧
    0 < (g.nodes.getD e.1 default).perp_dot (g.nodes.getD e.2 default)

/-- The claim's "edge on the square's boundary going clockwise": a shared
coordinate equal to ±0.5, negative winding, endpoints on the square. -/
def CwEdge (g : Graph Vec2) (e : Nat × Nat) : Prop :=
  onSquareBoundary (g.nodes.getD e.1 default) (g.nodes.getD e.2 default)
      = true ∧
    (g.nodes.getD e.1 default).perp_dot (g.nodes.getD e.2 default) < 0 ∧
    inSquare (g.nodes.getD e.1 default) ∧ inSquare (g.nodes.getD e.2 default)

/-- The graph state after merging, boundary stripping and lone-vertex
removal, when every edge was a clockwise square-boundary edge: the
surviving (edge-incident) vertices with the edge list emptied. -/
def strippedSquareGraph (g : Graph Vec2) : Graph Vec2 :=
  ⟨((combine_equal_vertices g).retainNodes
      (fun h n => decide (0 < h.degree n))).nodes, []⟩

/-- The closed cycle through `pts` starting at `i`: the full square
boundary through every boundary point. -/
def squareCycle (pts : List Vec2) (i : Nat) : List (Vec2 × Vec2) :=
  (List.range pts.length).map (fun k =>
    (pts.getD ((i + k) % pts.length) default,
     pts.getD ((i + k + 1) % pts.length) default))

/-- A point on the perimeter of the centered unit square. -/
def onPerim (p : Vec2) : Prop :=
  (qabs p.x = half ∨ qabs p.y = half) ∧ inSquare p

theorem vec2_ext (p q : Vec2) (hx : p.x = q.x) (hy : p.y = q.y) : p = q := by
  cases p
  cases q
  cases hx
  cases hy
  rfl

theorem perimKey_eq (p : Vec2) : perimKey p =
    if p.x = -half then half + p.y
    else if p.y = half then 3 / 2 + p.x
    else if p.x = half then 5 / 2 - p.y
    else if p.y = -half then 7 / 2 - p.x
    else 100 := by
  have h32 : (mkRat 3 2 : ℚ) = 3 / 2 := by norm_num [Rat.mkRat_eq_div]
  have h52 : (mkRat 5 2 : ℚ) = 5 / 2 := by norm_num [Rat.mkRat_eq_div]
  have h72 : (mkRat 7 2 : ℚ) = 7 / 2 := by norm_num [Rat.mkRat_eq_div]
  unfold perimKey
  rw [qadd_eq, qadd_eq, qsub_eq, qsub_eq, h32, h52, h72]

theorem perimKey_cases (p : Vec2) (hp : onPerim p) :
    (p.x = -half ∧ perimKey p = half + p.y ∧
      0 ≤ perimKey p ∧ perimKey p ≤ 1) ∨
    (p.y = half ∧ perimKey p = 3 / 2 + p.x ∧
      1 < perimKey p ∧ perimKey p ≤ 2) ∨
    (p.x = half ∧ perimKey p = 5 / 2 - p.y ∧
      2 < perimKey p ∧ perimKey p ≤ 3) ∨
    (p.y = -half ∧ perimKey p = 7 / 2 - p.x ∧
      3 < perimKey p ∧ perimKey p < 4) := by
  obtain ⟨habs, hx1, hx2, hy1, hy2⟩ := hp
  have hh : half = 1 / 2 := half_eq
  by_cases h1 : p.x = -half
  · left
    have he : perimKey p = half + p.y := by rw [perimKey_eq, if_pos h1]
    exact ⟨h1, he, by rw [he, hh]; linarith [hh ▸ hy1],
      by rw [he, hh]; linarith [hh ▸ hy2]⟩
  · by_cases h2 : p.y = half
    · right; left
      have he : perimKey p = 3 / 2 + p.x := by
        rw [perimKey_eq, if_neg h1, if_pos h2]
      have hxlt : -half < p.x := lt_of_le_of_ne hx1 (Ne.symm h1)
      exact ⟨h2, he, by rw [he]; linarith [hh ▸ hxlt],
        by rw [he]; linarith [hh ▸ hx2]⟩
    · by_cases h3 : p.x = half
      · right; right; left
        have he : perimKey p = 5 / 2 - p.y := by
          rw [perimKey_eq, if_neg h1, if_neg h2, if_pos h3]
        have hylt : p.y < half := lt_of_le_of_ne hy2 h2
        exact ⟨h3, he, by rw [he]; linarith [hh ▸ hylt],
          by rw [he]; linarith [hh ▸ hy1]⟩
      · by_cases h4 : p.y = -half
        · right; right; right
          have he : perimKey p = 7 / 2 - p.x := by
            rw [perimKey_eq, if_neg h1, if_neg h2, if_neg h3, if_pos h4]
          have hxlt : -half < p.x := lt_of_le_of_ne hx1 (Ne.symm h1)
          have hxlt2 : p.x < half := lt_of_le_of_ne hx2 h3
          exact ⟨h4, he, by rw [he]; linarith [hh ▸ hxlt2],
            by rw [he]; linarith [hh ▸ hxlt]⟩
        · exfalso
          have h0 : (0 : ℚ) ≤ half := by rw [hh]; norm_num
          rcases habs with hax | hay
          · rw [qabs_eq_abs] at hax
            rcases (abs_eq h0).mp hax with hc | hc
            · exact h3 hc
            · exact h1 hc
          · rw [qabs_eq_abs] at hay
            rcases (abs_eq h0).mp hay with hc | hc
            · exact h2 hc
            · exact h4 hc

theorem perimKey_inj (p q : Vec2) (hp : onPerim p) (hq : onPerim q)
    (hk : perimKey p = perimKey q) : p = q := by
  rcases perimKey_cases p hp with ⟨hc, he, hlo, hhi⟩ | ⟨hc, he, hlo, hhi⟩ |
      ⟨hc, he, hlo, hhi⟩ | ⟨hc, he, hlo, hhi⟩ <;>
    rcases perimKey_cases q hq with ⟨hc', he', hlo', hhi'⟩ |
      ⟨hc', he', hlo', hhi'⟩ | ⟨hc', he', hlo', hhi'⟩ |
      ⟨hc', he', hlo', hhi'⟩ <;>
    first
      | (exfalso; linarith)
      | (apply vec2_ext <;>
          first
            | (rw [hc, hc'])
            | (rw [he, he'] at hk; linarith))

theorem squareCorners_onPerim : ∀ p ∈ squareCorners, onPerim p := by
  intro p hp
  fin_cases hp <;> exact ⟨by decide, by decide, by decide, by decide, by decide⟩

/-- The boundary point list: membership and distinctness, whenever every
graph node lies on the perimeter. -/
theorem boundaryPoints_spec (g : Graph Vec2)
    (hnodes : ∀ p ∈ g.nodes, onPerim p) :
    (∀ x, x ∈ boundaryPoints g ↔ x ∈ squareCorners ∨ x ∈ g.nodes) ∧
      (boundaryPoints g).Nodup := by
  have hfil : g.nodes.filter
      (fun p => qabs p.x = half || qabs p.y = half) = g.nodes := by
    apply List.filter_eq_self.mpr
    intro p hp
    rcases (hnodes p hp).1 with h | h <;> simp [h]
  have hmemS : ∀ x,
      x ∈ squareCorners ++ g.nodes.filter
        (fun p => qabs p.x = half || qabs p.y = half) ↔
        x ∈ squareCorners ∨ x ∈ g.nodes := by
    intro x
    rw [hfil, List.mem_append]
  have hperim : ∀ x ∈ stableSortBy
      (fun a b => decide (perimKey a < perimKey b))
      (squareCorners ++ g.nodes.filter
        (fun p => qabs p.x = half || qabs p.y = half)), onPerim x := by
    intro x hx
    rcases (hmemS x).mp ((mem_stableSortBy _ _ x).mp hx) with h | h
    · exact squareCorners_onPerim x h
    · exact hnodes x h
  have hpair := pairwise_stableSortBy perimKey
    (squareCorners ++ g.nodes.filter
      (fun p => qabs p.x = half || qabs p.y = half))
  have hinj : ∀ x ∈ stableSortBy
      (fun a b => decide (perimKey a < perimKey b))
      (squareCorners ++ g.nodes.filter
        (fun p => qabs p.x = half || qabs p.y = half)),
      ∀ y ∈ stableSortBy (fun a b => decide (perimKey a < perimKey b))
        (squareCorners ++ g.nodes.filter
          (fun p => qabs p.x = half || qabs p.y = half)),
      perimKey x = perimKey y → x = y := fun x hx y hy hk =>
    perimKey_inj x y (hperim x hx) (hperim y hy) hk
  constructor
  · intro x
    unfold boundaryPoints
    rw [mem_dedupConsec, mem_stableSortBy, hmemS]
  · exact dedupConsec_nodup perimKey _ hpair hinj

theorem alookup_append {α β : Type} [DecidableEq α] (xs ys : List (α × β))
    (k : α) :
    alookup (xs ++ ys) k = match alookup xs k with
      | some v => some v
      | none => alookup ys k := by
  induction xs with
  | nil => simp [alookup]
  | cons e xs ih =>
    obtain ⟨k', v⟩ := e
    by_cases h : k' = k
    · simp [alookup, h]
    · simpa [alookup, h] using ih

theorem get?_prefix {α : Type} (l tail : List α) (n : Nat) (v : α)
    (h : l.get? n = some v) : (l ++ tail).get? n = some v := by
  rw [List.get?_append (List.get?_eq_some.mp h).1]
  exact h

theorem alookup_map_getD (L : List Vec2) (p : Vec2) :
    ∀ (l : List Nat) (n : Nat),
      alookup (l.map fun m => (L.getD m default, m)) p = some n →
      n ∈ l ∧ L.getD n default = p := by
  intro l
  induction l with
  | nil => intro n h; simp [alookup] at h
  | cons m l ih =>
    intro n h
    simp only [List.map_cons, alookup] at h
    by_cases hc : L.getD m default = p
    · rw [if_pos hc] at h
      obtain rfl := Option.some_inj.mp h
      exact ⟨List.mem_cons_self _ _, hc⟩
    · rw [if_neg hc] at h
      obtain ⟨hm, hg⟩ := ih n h
      exact ⟨List.mem_cons_of_mem _ hm, hg⟩

theorem alookup_buildNodeMap_correct (g : Graph Vec2) (p : Vec2) (n : Nat)
    (h : alookup (buildNodeMap g) p = some n) :
    g.nodes.get? n = some p := by
  unfold buildNodeMap at h
  obtain ⟨hmem, hg⟩ := alookup_map_getD g.nodes p _ n h
  have hn : n < g.nodes.length := List.mem_range.mp hmem
  rw [List.getD_eq_get?, List.get?_eq_get hn] at hg
  simp only [Option.getD_some] at hg
  rw [List.get?_eq_get hn, hg]

theorem alookup_map_getD_isSome (L : List Vec2) (p : Vec2) :
    ∀ (l : List Nat) (n : Nat), n ∈ l → L.getD n default = p →
      (alookup (l.map fun m => (L.getD m default, m)) p).isSome = true := by
  intro l
  induction l with
  | nil => intro n h; simp at h
  | cons m l ih =>
    intro n hmem hg
    simp only [List.map_cons, alookup]
    by_cases hc : L.getD m default = p
    · rw [if_pos hc]; rfl
    · rw [if_neg hc]
      rcases List.mem_cons.mp hmem with rfl | hmem'
      · exact absurd hg hc
      · exact ih n hmem' hg

theorem alookup_buildNodeMap_isSome (g : Graph Vec2) (p : Vec2)
    (hp : p ∈ g.nodes) : (alookup (buildNodeMap g) p).isSome = true := by
  obtain ⟨n, hn⟩ := List.get?_of_mem hp
  have hlt : n < g.nodes.length := (List.get?_eq_some.mp hn).1
  apply alookup_map_getD_isSome g.nodes p _ n (List.mem_range.mpr hlt)
  rw [List.getD_eq_get?, hn]
  rfl

theorem findIdx?_none_of_all_false {α : Type} (p : α → Bool) :
    ∀ l : List α, (∀ x ∈ l, p x = false) → l.findIdx? p = none := by
  intro l
  induction l with
  | nil => intro _; rfl
  | cons a l ih =>
    intro h
    rw [List.findIdx?_cons, if_neg (by simp [h a (List.mem_cons_self a l)]),
      List.findIdx?_succ, ih (fun x hx => h x (List.mem_cons_of_mem a hx))]
    rfl

theorem findIdx?_isSome_of_exists {α : Type} (p : α → Bool) :
    ∀ l : List α, (∃ x ∈ l, p x = true) → (l.findIdx? p).isSome = true := by
  intro l
  induction l with
  | nil => rintro ⟨x, hx, -⟩; simp at hx
  | cons a l ih =>
    rintro ⟨x, hx, hpx⟩
    rw [List.findIdx?_cons]
    by_cases hpa : p a = true
    · rw [if_pos hpa]; rfl
    · rw [if_neg hpa, List.findIdx?_succ]
      rcases List.mem_cons.mp hx with rfl | hx'
      · exact absurd hpx hpa
      · simpa using ih ⟨x, hx', hpx⟩

theorem findIdx?_lt_length {α : Type} (p : α → Bool) :
    ∀ (l : List α) (i : Nat), l.findIdx? p = some i → i < l.length := by
  intro l
  induction l with
  | nil => intro i h; simp [List.findIdx?_nil] at h
  | cons a l ih =>
    intro i h
    rw [List.findIdx?_cons] at h
    by_cases hpa : p a = true
    · rw [if_pos hpa] at h
      obtain rfl := Option.some_inj.mp h
      simp
    · rw [if_neg hpa, List.findIdx?_succ] at h
      rcases Option.map_eq_some'.mp h with ⟨j, hj, hji⟩
      have := ih j hj
      simp only [List.length_cons]
      omega

theorem nodup_getD_ne (l : List Vec2) (hnd : l.Nodup) (a b : Nat)
    (ha : a < l.length) (hb : b < l.length) (hab : a ≠ b) :
    l.getD a default ≠ l.getD b default := by
  intro h
  rw [List.getD_eq_get?, List.getD_eq_get?, List.get?_eq_get ha,
    List.get?_eq_get hb] at h
  simp only [Option.getD_some] at h
  have := (List.Nodup.get_inj_iff hnd).mp h
  rw [Fin.mk.injEq] at this
  exact hab this

theorem add_mod_inj (i L a b : Nat) (ha : a < L) (hb : b < L)
    (h : (i + a) % L = (i + b) % L) : a = b := by
  have hm : Nat.ModEq L (i + a) (i + b) := h
  have hab : a % L = b % L := Nat.ModEq.add_left_cancel' i hm
  rwa [Nat.mod_eq_of_lt ha, Nat.mod_eq_of_lt hb] at hab

theorem foldl_range_succ {σ : Type _} (f : σ → Nat → σ) (s : σ) (n : Nat) :
    (List.range (n + 1)).foldl f s = f ((List.range n).foldl f s) n := by
  rw [List.range_succ, List.foldl_append, List.foldl_cons, List.foldl_nil]

/-- `node_map.entry(..).or_insert_with(..)`: the graph's edges are
untouched, nodes only grow, the returned index holds the position, and
lookup-correctness is preserved. -/
theorem entryNode_spec (g : Graph Vec2) (nmap : List (Vec2 × Nat))
    (pos : Vec2)
    (hcorr : ∀ p m, alookup nmap p = some m → g.nodes.get? m = some p) :
    (entryNode g nmap pos).1.edges = g.edges ∧
    (∃ tail, (entryNode g nmap pos).1.nodes = g.nodes ++ tail) ∧
    (entryNode g nmap pos).1.nodes.get? (entryNode g nmap pos).2.2 =
      some pos ∧
    (∀ p m, alookup (entryNode g nmap pos).2.1 p = some m →
      (entryNode g nmap pos).1.nodes.get? m = some p) := by
  unfold entryNode
  cases hc : alookup nmap pos with
  | some m =>
    dsimp only
    exact ⟨rfl, ⟨[], by simp⟩, hcorr pos m hc, hcorr⟩
  | none =>
    dsimp only [Graph.addNode]
    refine ⟨rfl, ⟨[pos], rfl⟩, List.get?_concat_length _ _, ?_⟩
    intro p m hm
    rw [alookup_append] at hm
    cases ha : alookup nmap p with
    | some m' =>
      rw [ha] at hm
      obtain rfl := Option.some_inj.mp hm
      exact get?_prefix _ _ _ _ (hcorr p m' ha)
    | none =>
      rw [ha] at hm
      by_cases hp : pos = p
      · subst hp
        simp only [alookup, if_pos rfl] at hm
        obtain rfl := Option.some_inj.mp hm
        exact List.get?_concat_length _ _
      · simp [alookup, hp] at hm

/-- The state of the square-drawing do-while loop after `k` iterations. -/
def walkFold (pts : List Vec2) (i0 : Nat) (g0 : Graph Vec2)
    (nmap0 : List (Vec2 × Nat)) (k : Nat) : WalkState :=
  (List.range k).foldl (fun s m => walkStep pts ((i0 + m) % pts.length) s)
    ⟨g0, nmap0, true⟩

/-- Invariant of the drawing walk on an initially edgeless graph: still
inside, the node map is lookup-correct, and the edges drawn so far are
exactly the first `k` consecutive boundary-point pairs. -/
def WalkInv (pts : List Vec2) (i0 : Nat) (g0 : Graph Vec2)
    (nmap0 : List (Vec2 × Nat)) (k : Nat) : Prop :=
  (k < pts.length → (walkFold pts i0 g0 nmap0 k).inside = true) ∧
  (∀ p n, alookup (walkFold pts i0 g0 nmap0 k).nmap p = some n →
    (walkFold pts i0 g0 nmap0 k).graph.nodes.get? n = some p) ∧
  (∀ e ∈ (walkFold pts i0 g0 nmap0 k).graph.edges, ∃ m, m < k ∧
    (walkFold pts i0 g0 nmap0 k).graph.nodes.get? e.1 =
      some (pts.getD ((i0 + m) % pts.length) default) ∧
    (walkFold pts i0 g0 nmap0 k).graph.nodes.get? e.2 =
      some (pts.getD ((i0 + m + 1) % pts.length) default)) ∧
  ((walkFold pts i0 g0 nmap0 k).graph.edges.map (fun e =>
      ((walkFold pts i0 g0 nmap0 k).graph.nodes.getD e.1 default,
       (walkFold pts i0 g0 nmap0 k).graph.nodes.getD e.2 default)) =
    (List.range k).map (fun m =>
      (pts.getD ((i0 + m) % pts.length) default,
       pts.getD ((i0 + m + 1) % pts.length) default)))

theorem walkFold_succ (pts : List Vec2) (i0 : Nat) (g0 : Graph Vec2)
    (nmap0 : List (Vec2 × Nat)) (k : Nat) :
    walkFold pts i0 g0 nmap0 (k + 1) =
      walkStep pts ((i0 + k) % pts.length)
        (walkFold pts i0 g0 nmap0 k) := by
  unfold walkFold
  exact foldl_range_succ _ _ k

theorem walkInv_step (pts : List Vec2) (i0 : Nat) (g0 : Graph Vec2)
    (nmap0 : List (Vec2 × Nat)) (hnd : pts.Nodup) (hL : 1 < pts.length)
    (k : Nat) (hk : k < pts.length) (ih : WalkInv pts i0 g0 nmap0 k) :
    WalkInv pts i0 g0 nmap0 (k + 1) := by
  obtain ⟨hins, hcor, hchar, hmap⟩ := ih
  have hins' := hins hk
  have hLpos : 0 < pts.length := by omega
  have hjeq : ((i0 + k) % pts.length + 1) % pts.length =
      (i0 + k + 1) % pts.length := by rw [Nat.mod_add_mod]
  rcases hE1 : entryNode (walkFold pts i0 g0 nmap0 k).graph
      (walkFold pts i0 g0 nmap0 k).nmap
      (pts.getD ((i0 + k) % pts.length) default) with ⟨g1, m1, n1⟩
  have spec1 := entryNode_spec (walkFold pts i0 g0 nmap0 k).graph
      (walkFold pts i0 g0 nmap0 k).nmap
      (pts.getD ((i0 + k) % pts.length) default) hcor
  rw [hE1] at spec1
  dsimp only at spec1
  obtain ⟨hed1, ⟨t1, hnodes1⟩, hget1, hcor1⟩ := spec1
  rcases hE2 : entryNode g1 m1
      (pts.getD ((i0 + k + 1) % pts.length) default) with ⟨g2, m2, n2⟩
  have spec2 := entryNode_spec g1 m1
      (pts.getD ((i0 + k + 1) % pts.length) default) hcor1
  rw [hE2] at spec2
  dsimp only at spec2
  obtain ⟨hed2, ⟨t2, hnodes2⟩, hget2, hcor2⟩ := spec2
  have hred : walkFold pts i0 g0 nmap0 (k + 1) =
      ⟨g2.addEdge n1 n2, m2,
        ((match alookup (walkFold pts i0 g0 nmap0 k).nmap
            (pts.getD ((i0 + k + 1) % pts.length) default) with
          | some n =>
            decide ((walkFold pts i0 g0 nmap0 k).graph.degree n % 2 ≠ 0)
          | none => false) != true)⟩ := by
    rw [walkFold_succ]
    simp only [walkStep]
    rw [hjeq, hins', hE1]
    dsimp only
    rw [hE2]
    dsimp only
    rw [if_pos rfl]
  refine ⟨?_, ?_, ?_, ?_⟩
  · intro hk1
    rw [hred]
    cases hc : alookup (walkFold pts i0 g0 nmap0 k).nmap
        (pts.getD ((i0 + k + 1) % pts.length) default) with
    | none => rfl
    | some n =>
      have hg := hcor _ n hc
      have hdeg : (walkFold pts i0 g0 nmap0 k).graph.degree n = 0 := by
        apply degree_eq_zero_of_no_incidence
        intro e he
        obtain ⟨m, hm, h1, h2⟩ := hchar e he
        constructor
        · intro heq
          rw [heq, hg] at h1
          have hpe := Option.some_inj.mp h1
          have hne : (i0 + k + 1) % pts.length ≠
              (i0 + m) % pts.length := by
            intro hmod
            have := add_mod_inj i0 pts.length (k + 1) m hk1 (by omega) hmod
            omega
          exact nodup_getD_ne pts hnd _ _ (Nat.mod_lt _ hLpos)
            (Nat.mod_lt _ hLpos) hne hpe
        · intro heq
          rw [heq, hg] at h2
          have hpe := Option.some_inj.mp h2
          have hne : (i0 + k + 1) % pts.length ≠
              (i0 + m + 1) % pts.length := by
            intro hmod
            have := add_mod_inj i0 pts.length (k + 1) (m + 1) hk1
              (by omega) hmod
            omega
          exact nodup_getD_ne pts hnd _ _ (Nat.mod_lt _ hLpos)
            (Nat.mod_lt _ hLpos) hne hpe
      dsimp only
      rw [hdeg]
      simp
  · intro p n hn
    rw [hred] at hn ⊢
    dsimp only [Graph.addEdge] at hn ⊢
    exact hcor2 p n hn
  · intro e he
    rw [hred] at he
    dsimp only [Graph.addEdge] at he
    rw [hed2, hed1] at he
    rcases List.mem_append.mp he with hold | hnew
    · obtain ⟨m, hm, h1, h2⟩ := hchar e hold
      refine ⟨m, by omega, ?_, ?_⟩
      · rw [hred]
        dsimp only [Graph.addEdge]
        rw [hnodes2, hnodes1, List.append_assoc]
        exact get?_prefix _ _ _ _ h1
      · rw [hred]
        dsimp only [Graph.addEdge]
        rw [hnodes2, hnodes1, List.append_assoc]
        exact get?_prefix _ _ _ _ h2
    · simp only [List.mem_singleton] at hnew
      subst hnew
      refine ⟨k, by omega, ?_, ?_⟩
      · rw [hred]
        dsimp only [Graph.addEdge]
        rw [hnodes2]
        exact get?_prefix _ _ _ _ hget1
      · rw [hred]
        dsimp only [Graph.addEdge]
        exact hget2
  · rw [hred]
    dsimp only [Graph.addEdge]
    rw [hed2, hed1, List.map_append, List.range_succ, List.map_append]
    have hpre2 : ∀ (n : Nat) (v : Vec2),
        (walkFold pts i0 g0 nmap0 k).graph.nodes.get? n = some v →
        g2.nodes.get? n = some v := by
      intro n v hv
      rw [hnodes2, hnodes1, List.append_assoc]
      exact get?_prefix _ _ _ _ hv
    congr 1
    · rw [← hmap]
      apply List.map_congr_left
      intro e he
      obtain ⟨m, hm, h1, h2⟩ := hchar e he
      have c1 : g2.nodes.getD e.1 default =
          (walkFold pts i0 g0 nmap0 k).graph.nodes.getD e.1 default := by
        rw [List.getD_eq_get?, List.getD_eq_get?, hpre2 _ _ h1, h1]
      have c2 : g2.nodes.getD e.2 default =
          (walkFold pts i0 g0 nmap0 k).graph.nodes.getD e.2 default := by
        rw [List.getD_eq_get?, List.getD_eq_get?, hpre2 _ _ h2, h2]
      rw [c1, c2]
    · have d1 : g2.nodes.getD n1 default =
          pts.getD ((i0 + k) % pts.length) default := by
        have : g2.nodes.get? n1 =
            some (pts.getD ((i0 + k) % pts.length) default) := by
          rw [hnodes2]
          exact get?_prefix _ _ _ _ hget1
        rw [List.getD_eq_get?, this]
        rfl
      have d2 : g2.nodes.getD n2 default =
          pts.getD ((i0 + k + 1) % pts.length) default := by
        rw [List.getD_eq_get?, hget2]
        rfl
      simp only [List.map_cons, List.map_nil]
      rw [d1, d2]

/-- The square-drawing walk on an edgeless graph draws exactly the full
boundary-point cycle, starting anywhere. -/
theorem walkSquare_spec (pts : List Vec2) (i0 : Nat) (g0 : Graph Vec2)
    (nmap0 : List (Vec2 × Nat))
    (hL : 1 < pts.length) (hnd : pts.Nodup)
    (hedges : g0.edges = [])
    (hcorr : ∀ p n, alookup nmap0 p = some n → g0.nodes.get? n = some p) :
    Graph.edgePositions (walkSquare pts i0 g0 nmap0) = squareCycle pts i0
    := by
  have base : WalkInv pts i0 g0 nmap0 0 := by
    have h0 : (walkFold pts i0 g0 nmap0 0).graph.edges = [] := hedges
    refine ⟨fun _ => rfl, ?_, ?_, ?_⟩
    · intro p n h
      exact hcorr p n h
    · intro e he
      rw [h0] at he
      simp at he
    · rw [h0]
      rfl
  have main : ∀ k, k ≤ pts.length → WalkInv pts i0 g0 nmap0 k := by
    intro k
    induction k with
    | zero => intro _; exact base
    | succ k ihk =>
      intro hk1
      exact walkInv_step pts i0 g0 nmap0 hnd hL k (by omega) (ihk (by omega))
  obtain ⟨-, -, -, hmap⟩ := main pts.length le_rfl
  exact hmap

theorem findIndexStage1_nil (nds : List Vec2) (nmap : List (Vec2 × Nat))
    (points : List Vec2) :
    findIndexStage1 ⟨nds, []⟩ nmap points = none := by
  unfold findIndexStage1
  apply findIdx?_none_of_all_false
  intro pos _
  cases hc : alookup nmap pos with
  | none => rfl
  | some n => simp [Graph.outdegree, Graph.indegree]

theorem findIndexStage2_isSome (nds : List Vec2) (points : List Vec2)
    (p : Vec2) (hp : p ∈ nds) (hpts : p ∈ points) :
    (findIndexStage2 ⟨nds, []⟩ (buildNodeMap ⟨nds, []⟩) points).isSome
      = true := by
  unfold findIndexStage2
  apply findIdx?_isSome_of_exists
  obtain ⟨i, hi⟩ := List.get?_of_mem hpts
  have hlt : i < points.length := (List.get?_eq_some.mp hi).1
  refine ⟨i, List.mem_range.mpr hlt, ?_⟩
  have hgd : points.getD i default = p := by
    rw [List.getD_eq_get?, hi]
    rfl
  dsimp only
  rw [hgd]
  obtain ⟨n, hn⟩ := Option.isSome_iff_exists.mp
    (alookup_buildNodeMap_isSome ⟨nds, []⟩ p hp)
  rw [hn]
  dsimp only
  simp only [Graph.outdegree, Graph.indegree, inEdges, outEdges,
    List.filter_nil, List.length_nil, dot_fn, dotMinFold, List.map_nil,
    List.foldl_nil, dotOr, DotVal.lt, Bool.and_eq_true, decide_eq_true_eq]
  norm_num

theorem exists_incident_of_degree_pos {N : Type} (g : Graph N) (n : Nat)
    (h : 0 < g.degree n) : ∃ e ∈ g.edges, e.1 = n ∨ e.2 = n := by
  unfold Graph.degree Graph.indegree Graph.outdegree at h
  by_cases hin : (g.edges.filter (fun e => decide (e.2 = n))).length = 0
  · have hout : (g.edges.filter (fun e => decide (e.1 = n))) ≠ [] := by
      intro hnil
      rw [hnil] at h
      simp only [List.length_nil] at h
      omega
    obtain ⟨e, he⟩ := List.exists_mem_of_ne_nil _ hout
    obtain ⟨hmem, hp⟩ := List.mem_filter.mp he
    exact ⟨e, hmem, Or.inl (by simpa using hp)⟩
  · have hinne : (g.edges.filter (fun e => decide (e.2 = n))) ≠ [] := by
      intro hnil
      rw [hnil] at hin
      simp at hin
    obtain ⟨e, he⟩ := List.exists_mem_of_ne_nil _ hinne
    obtain ⟨hmem, hp⟩ := List.mem_filter.mp he
    exact ⟨e, hmem, Or.inr (by simpa using hp)⟩

/-- A property of endpoint positions transfers through the lone-vertex
removal. -/
theorem retainNodes_edgeProp (g : Graph Vec2) (hwf : g.WF)
    (P : Vec2 → Vec2 → Prop)
    (hP : ∀ e ∈ g.edges,
      P (g.nodes.getD e.1 default) (g.nodes.getD e.2 default)) :
    ∀ x ∈ (g.retainNodes (fun h m => decide (0 < h.degree m))).edges,
      P ((g.retainNodes
            (fun h m => decide (0 < h.degree m))).nodes.getD x.1 default)
        ((g.retainNodes
            (fun h m => decide (0 < h.degree m))).nodes.getD x.2 default)
    := by
  intro x hx
  rw [retainNodes_degree_edges g hwf] at hx
  rcases List.mem_map.mp hx with ⟨e, he, rfl⟩
  obtain ⟨hL1, hL2⟩ := hwf e he
  obtain ⟨-, hn1⟩ := renumDeg_spec g e.1 hL1 (degree_pos_left g e he)
  obtain ⟨-, hn2⟩ := renumDeg_spec g e.2 hL2 (degree_pos_right g e he)
  have c1 : (g.retainNodes
      (fun h m => decide (0 < h.degree m))).nodes.getD (renumDeg g e.1)
        default = g.nodes.getD e.1 default := by
    rw [List.getD_eq_get?, List.getD_eq_get?, hn1]
  have c2 : (g.retainNodes
      (fun h m => decide (0 < h.degree m))).nodes.getD (renumDeg g e.2)
        default = g.nodes.getD e.2 default := by
    rw [List.getD_eq_get?, List.getD_eq_get?, hn2]
  dsimp only
  rw [c1, c2]
  exact hP e he

theorem orElse_none' {α : Type} (f : Unit → Option α) :
    (none : Option α).orElse f = f () := rfl

theorem orElse_some' {α : Type} (a : α) (f : Unit → Option α) :
    (some a).orElse f = some a := rfl

theorem onSquareBoundary_props (p q : Vec2)
    (h : onSquareBoundary p q = true) :
    (qabs p.x = half ∧ p.x = q.x) ∨ (qabs p.y = half ∧ p.y = q.y) := by
  unfold onSquareBoundary at h
  simp only [Bool.or_eq_true, Bool.and_eq_true, decide_eq_true_eq] at h
  exact h

/-- The clockwise case of C4: the pipeline strips the boundary edges, then
walks the full square boundary through every boundary point and succeeds. -/
theorem c4_cw_case (g : Graph Vec2) (hwf : g.WF) (hne : g.edges ≠ [])
    (h : ∀ e ∈ g.edges, CwEdge g e) :
    (intersect_center_unit_square_on_graph g).2 = true ∧
    (∀ p, p ∈ boundaryPoints (strippedSquareGraph g) ↔
        p ∈ squareCorners ∨ p ∈ (strippedSquareGraph g).nodes) ∧
    ∃ i < (boundaryPoints (strippedSquareGraph g)).length,
      Graph.edgePositions (intersect_center_unit_square_on_graph g).1 =
        squareCycle (boundaryPoints (strippedSquareGraph g)) i := by
  have hcP := combine_edgeProp g
    (fun p q => onSquareBoundary p q = true ∧ p.perp_dot q < 0 ∧
      inSquare p ∧ inSquare q) h
  have hcwf := combine_WF g
  have hslit : (combine_equal_vertices g).retainEdges slitKeep =
      combine_equal_vertices g :=
    retainEdges_slit_id_neg _ (fun x hx => (hcP x hx).2.1)
  have hccwflag : (combine_equal_vertices g).retainEdgesFlag
      (ccwKeep (combine_equal_vertices g).nodes) =
      (combine_equal_vertices g, false) :=
    retainEdgesFlag_keepAll _ _
      (fun e he => ccwKeep_true_of_neg _ e (hcP e he).2.1)
  have hdist : ∀ e ∈ g.edges,
      g.nodes.getD e.1 default ≠ g.nodes.getD e.2 default := by
    intro e he heq
    have := (h e he).2.1
    rw [heq, perp_dot_self] at this
    exact lt_irrefl 0 this
  have hcne := combine_edges_ne_nil g hwf hne hdist
  have hb4P := retainNodes_edgeProp (combine_equal_vertices g) hcwf
    (fun p q => onSquareBoundary p q = true ∧ p.perp_dot q < 0 ∧
      inSquare p ∧ inSquare q) hcP
  have hb4edges := retainNodes_degree_edges (combine_equal_vertices g) hcwf
  have hb4ne : ((combine_equal_vertices g).retainNodes
      (fun h n => decide (0 < h.degree n))).edges ≠ [] := by
    rw [hb4edges]
    simp [hcne]
  have hb4lenpos : 0 < ((combine_equal_vertices g).retainNodes
      (fun h n => decide (0 < h.degree n))).edges.length :=
    List.length_pos.mpr hb4ne
  have hcwflag : ((combine_equal_vertices g).retainNodes
      (fun h n => decide (0 < h.degree n))).retainEdgesFlag
      (cwKeep ((combine_equal_vertices g).retainNodes
        (fun h n => decide (0 < h.degree n))).nodes) =
      (⟨((combine_equal_vertices g).retainNodes
          (fun h n => decide (0 < h.degree n))).nodes, []⟩, true) := by
    rw [retainEdgesFlag_removeAll _ _
      (fun e he => cwKeep_false _ e (hb4P e he).1)]
    rw [decide_eq_true hb4lenpos]
  have hperimnodes : ∀ p ∈ (strippedSquareGraph g).nodes, onPerim p := by
    intro p hp
    obtain ⟨n, hget, hdeg⟩ := retainNodes_degree_nodes_mem
      (combine_equal_vertices g) p hp
    obtain ⟨e, he, hor⟩ := exists_incident_of_degree_pos _ n hdeg
    obtain ⟨hob, hpd, hsq1, hsq2⟩ := hcP e he
    have hgd : (combine_equal_vertices g).nodes.getD n default = p := by
      rw [List.getD_eq_get?, hget]
      rfl
    rcases hor with h1 | h2
    · subst h1
      rw [hgd] at hob hsq1
      rcases onSquareBoundary_props _ _ hob with ⟨ha, -⟩ | ⟨ha, -⟩
      · exact ⟨Or.inl ha, hsq1⟩
      · exact ⟨Or.inr ha, hsq1⟩
    · subst h2
      rw [hgd] at hob hsq2
      rcases onSquareBoundary_props _ _ hob with ⟨ha, heq⟩ | ⟨ha, heq⟩
      · rw [heq] at ha
        exact ⟨Or.inl ha, hsq2⟩
      · rw [heq] at ha
        exact ⟨Or.inr ha, hsq2⟩
  have hnd4 : (strippedSquareGraph g).nodes.Nodup := by
    show ((combine_equal_vertices g).retainNodes
      (fun h n => decide (0 < h.degree n))).nodes.Nodup
    exact retainNodes_nodes_nodup _ _ (c10_combine_equal_vertices_simple g).1
  obtain ⟨hmem, hndpts⟩ :=
    boundaryPoints_spec (strippedSquareGraph g) hperimnodes
  have hvert : ∃ p, p ∈ (strippedSquareGraph g).nodes := by
    obtain ⟨e4, he4⟩ := List.exists_mem_of_ne_nil _ hb4ne
    rw [hb4edges] at he4
    rcases List.mem_map.mp he4 with ⟨e, he, rfl⟩
    obtain ⟨hL1, -⟩ := hcwf e he
    obtain ⟨-, hn1⟩ := renumDeg_spec _ e.1 hL1 (degree_pos_left _ e he)
    obtain ⟨v, hv⟩ : ∃ v, (combine_equal_vertices g).nodes.get? e.1 = some v
      := ⟨_, List.get?_eq_get hL1⟩
    refine ⟨v, ?_⟩
    show v ∈ ((combine_equal_vertices g).retainNodes
      (fun h n => decide (0 < h.degree n))).nodes
    exact List.get?_mem (by rw [hn1]; exact hv)
  obtain ⟨pstar, hpstar⟩ := hvert
  have hpstarpts : pstar ∈ boundaryPoints (strippedSquareGraph g) :=
    (hmem pstar).mpr (Or.inr hpstar)
  have hcorner1 : vec2 (-half) (-half) ∈
      boundaryPoints (strippedSquareGraph g) :=
    (hmem _).mpr (Or.inl (by decide))
  have hcorner2 : vec2 (-half) half ∈
      boundaryPoints (strippedSquareGraph g) :=
    (hmem _).mpr (Or.inl (by decide))
  have hL : 1 < (boundaryPoints (strippedSquareGraph g)).length :=
    one_lt_length_of_two_mem hcorner1 hcorner2 (by decide)
  have hs2 := findIndexStage2_isSome
    ((combine_equal_vertices g).retainNodes
      (fun h n => decide (0 < h.degree n))).nodes
    (boundaryPoints (strippedSquareGraph g)) pstar hpstar hpstarpts
  obtain ⟨i, hi⟩ := Option.isSome_iff_exists.mp hs2
  have hi' : findIndexStage2
      ⟨((combine_equal_vertices g).retainNodes
        (fun h n => decide (0 < h.degree n))).nodes, []⟩
      (buildNodeMap ⟨((combine_equal_vertices g).retainNodes
        (fun h n => decide (0 < h.degree n))).nodes, []⟩)
      (boundaryPoints ⟨((combine_equal_vertices g).retainNodes
        (fun h n => decide (0 < h.degree n))).nodes, []⟩) = some i := hi
  have hilt : i < (boundaryPoints (strippedSquareGraph g)).length := by
    unfold findIndexStage2 at hi
    have := findIdx?_lt_length _ _ i hi
    simpa using this
  have hpipe : intersect_center_unit_square_on_graph g =
      (walkSquare (boundaryPoints (strippedSquareGraph g)) i
        (strippedSquareGraph g)
        (buildNodeMap (strippedSquareGraph g)), true) := by
    simp only [intersect_center_unit_square_on_graph]
    rw [hslit, hccwflag]
    dsimp only
    rw [hcwflag]
    dsimp only
    rw [if_neg (by simp)]
    rw [findIndexStage1_nil]
    simp only [orElse_none']
    rw [hi']
    simp only [orElse_some']
    rfl
  refine ⟨by rw [hpipe], hmem, ⟨i, hilt, ?_⟩⟩
  rw [hpipe]
  exact walkSquare_spec _ i _ _ hL hndpts rfl
    (fun p n hpn => alookup_buildNodeMap_correct _ p n hpn)

/-- The counterclockwise case of C4: the pipeline strips every edge and
every vertex, and returns success before drawing anything. -/
theorem c4_ccw_case (g : Graph Vec2) (hwf : g.WF) (hne : g.edges ≠ [])
    (h : ∀ e ∈ g.edges, CcwEdge g e) :
    intersect_center_unit_square_on_graph g = (⟨[], []⟩, true) := by
  have hcP := combine_edgeProp g
    (fun p q => onSquareBoundary p q = true ∧ 0 < p.perp_dot q) h
  have hslit : (combine_equal_vertices g).retainEdges slitKeep =
      combine_equal_vertices g :=
    retainEdges_slit_id_pos _ (fun x hx => (hcP x hx).2)
  have hdist : ∀ e ∈ g.edges,
      g.nodes.getD e.1 default ≠ g.nodes.getD e.2 default := by
    intro e he heq
    have := (h e he).2
    rw [heq, perp_dot_self] at this
    exact lt_irrefl 0 this
  have hcne := combine_edges_ne_nil g hwf hne hdist
  have hlenpos : 0 < (combine_equal_vertices g).edges.length :=
    List.length_pos.mpr hcne
  have hccw : (combine_equal_vertices g).retainEdgesFlag
      (ccwKeep (combine_equal_vertices g).nodes) =
      (⟨(combine_equal_vertices g).nodes, []⟩, true) := by
    rw [retainEdgesFlag_removeAll _ _
      (fun e he => ccwKeep_false _ e (hcP e he).1 (hcP e he).2)]
    rw [decide_eq_true hlenpos]
  simp only [intersect_center_unit_square_on_graph]
  rw [hslit, hccw]
  dsimp only
  rw [retainNodes_no_edges]
  rw [retainEdgesFlag_nil]
  dsimp only
  rw [if_pos ⟨rfl, by simp, rfl⟩]

/-- C4: for every well-formed 2D boundary graph with at least one edge,
all of whose edges lie on the square's boundary (a shared coordinate equal
to ±0.5): if every edge goes counterclockwise around the square (positive
winding), `intersect_center_unit_square_on_graph` leaves the graph with no
edges (and no vertices) and returns success; if every edge goes clockwise
(negative winding, endpoints on the square), it returns success and emits
the full square boundary: exactly one closed cycle through all the
boundary points (the four corners plus every surviving vertex). -/
theorem c4_boundary_square_ccw_cw (g : Graph Vec2) (hwf : g.WF)
    (hne : g.edges ≠ []) :
    ((∀ e ∈ g.edges, CcwEdge g e) →
      intersect_center_unit_square_on_graph g = (⟨[], []⟩, true)) ∧
    ((∀ e ∈ g.edges, CwEdge g e) →
      (intersect_center_unit_square_on_graph g).2 = true ∧
      (∀ p, p ∈ boundaryPoints (strippedSquareGraph g) ↔
          p ∈ squareCorners ∨ p ∈ (strippedSquareGraph g).nodes) ∧
      ∃ i < (boundaryPoints (strippedSquareGraph g)).length,
        Graph.edgePositions (intersect_center_unit_square_on_graph g).1 =
          squareCycle (boundaryPoints (strippedSquareGraph g)) i) :=
  ⟨c4_ccw_case g hwf hne, c4_cw_case g hwf hne⟩

/-- Witness for C4 at the two boundary-square test graphs of the source
(`test_boundary_square_intersect_boundary_{counter,}clockwise`): the top
edge split in two, traversed counterclockwise resp. clockwise. -/
theorem c4_boundary_square_ccw_cw_witness :
    (intersect_center_unit_square_on_graph
        ⟨[vec2 (-half) half, vec2 0 half, vec2 half half],
          [(2, 1), (1, 0)]⟩ = (⟨[], []⟩, true)) ∧
    ((intersect_center_unit_square_on_graph
        ⟨[vec2 (-half) half, vec2 0 half, vec2 half half],
          [(0, 1), (1, 2)]⟩).2 = true ∧
      (∀ p, p ∈ boundaryPoints (strippedSquareGraph
            ⟨[vec2 (-half) half, vec2 0 half, vec2 half half],
              [(0, 1), (1, 2)]⟩) ↔
          p ∈ squareCorners ∨ p ∈ (strippedSquareGraph
            ⟨[vec2 (-half) half, vec2 0 half, vec2 half half],
              [(0, 1), (1, 2)]⟩).nodes) ∧
      ∃ i < (boundaryPoints (strippedSquareGraph
          ⟨[vec2 (-half) half, vec2 0 half, vec2 half half],
            [(0, 1), (1, 2)]⟩)).length,
        Graph.edgePositions (intersect_center_unit_square_on_graph
            ⟨[vec2 (-half) half, vec2 0 half, vec2 half half],
              [(0, 1), (1, 2)]⟩).1 =
          squareCycle (boundaryPoints (strippedSquareGraph
            ⟨[vec2 (-half) half, vec2 0 half, vec2 half half],
              [(0, 1), (1, 2)]⟩)) i) :=
  ⟨(c4_boundary_square_ccw_cw
      ⟨[vec2 (-half) half, vec2 0 half, vec2 half half], [(2, 1), (1, 0)]⟩
      (by unfold Graph.WF; decide) (by decide)).1
      (by unfold CcwEdge; decide),
   (c4_boundary_square_ccw_cw
      ⟨[vec2 (-half) half, vec2 0 half, vec2 half half], [(0, 1), (1, 2)]⟩
      (by unfold Graph.WF; decide) (by decide)).2
      (by unfold CwEdge inSquare; decide)⟩

/-!
## Triangulation (`crate::triangulate::Polygon`)

`triangulate.rs` is not part of `src/`.  Modelled from the spec: §4.4 "run
ear-clipping / constrained triangulation on the polygon-with-holes to
produce 2D triangles" after the graph is reversed.  The model decomposes
the boundary graph into edge-disjoint cycles and ear-clips each cycle
(sufficient for boundaries that split into disjoint simple polygons, which
covers all graphs this development evaluates it on). -/

/-- Follow successor edges from `cur` until returning to `start`, removing
used edges; `none` on malformed boundaries. -/
def chaseCycle : Nat → List (Nat × Nat) → Nat → Nat → List Nat →
    Option (List Nat × List (Nat × Nat))
  | 0, _, _, _, _ => none
  | fuel + 1, es, start, cur, acc =>
    if cur = start then some (acc, es)
    else
      match es.find? (fun e2 => e2.1 = cur) with
      | none => none
      | some e2 => chaseCycle fuel (es.erase e2) start e2.2 (acc ++ [cur])

/-- Split an edge list into the node cycles it traces. -/
def cyclesGo : Nat → List (Nat × Nat) → List (List Nat)
  | 0, _ => []
  | _ + 1, [] => []
  | fuel + 1, e :: rest =>
    match chaseCycle (rest.length + 1) rest e.1 e.2 [e.1] with
    | none => cyclesGo fuel rest
    | some (cyc, remaining) => cyc :: cyclesGo fuel remaining

def extractCycles (g : Graph Vec2) : List (List Vec2) :=
  (cyclesGo g.edges.length g.edges).map
    (fun cyc => cyc.map (fun n => g.nodes.getD n default))

/-- Twice the signed area of a closed polygon. -/
def polySignedArea2 (poly : List Vec2) : ℚ :=
  ((List.range poly.length).map (fun i =>
    (poly.getD i default).perp_dot
      (poly.getD ((i + 1) % poly.length) default))).foldl qadd 0

/-- Point in (closed) triangle, oriented by the sign `s` of the polygon. -/
def pointInTriangle (s : ℚ) (a b c p : Vec2) : Bool :=
  0 ≤ qmul s ((b.sub a).perp_dot (p.sub a)) &&
    0 ≤ qmul s ((c.sub b).perp_dot (p.sub b)) &&
    0 ≤ qmul s ((a.sub c).perp_dot (p.sub c))

/-- Is vertex `i` an ear: convex corner containing no other vertex. -/
def isEar (s : ℚ) (poly : List Vec2) (i : Nat) : Bool :=
  let n := poly.length
  let a := poly.getD ((i + n - 1) % n) default
  let b := poly.getD i default
  let c := poly.getD ((i + 1) % n) default
  0 < qmul s ((b.sub a).perp_dot (c.sub b)) &&
    ((List.range n).all (fun j =>
      j = (i + n - 1) % n || j = i || j = (i + 1) % n ||
        !pointInTriangle s a b c (poly.getD j default)))

def earClipGo (s : ℚ) : Nat → List Vec2 → List (Vec2 × Vec2 × Vec2)
  | 0, _ => []
  | fuel + 1, poly =>
    if poly.length < 3 then []
    else if poly.length = 3 then
      [(poly.getD 0 default, poly.getD 1 default, poly.getD 2 default)]
    else
      match (List.range poly.length).find? (isEar s poly) with
      | none => []
      | some i =>
        let n := poly.length
        ((poly.getD ((i + n - 1) % n) default, poly.getD i default,
            poly.getD ((i + 1) % n) default)) ::
          earClipGo s fuel (poly.eraseIdx i)

/-- Modelled from the spec: `Polygon::from_boundary(boundary)?.triangulate()`
— ear-clip every boundary cycle, emitting triangles in cycle orientation. -/
def triangulateGraph (g : Graph Vec2) : List (Vec2 × Vec2 × Vec2) :=
  (extractCycles g).flatMap
    (fun poly => earClipGo (polySignedArea2 poly) poly.length poly)

/-!
## `manifold_from_triangle_soup` (lines 1048-1143)
-/

/-- `petgraph::unionfind::UnionFind` (union by rank). -/
structure UF where
  parent : Array Nat
  rank : Array Nat

def UF.new (n : Nat) : UF := ⟨Array.range n, Array.mkArray n 0⟩

def UF.findAux (u : UF) : Nat → Nat → Nat
  | 0, i => i
  | fuel + 1, i =>
    let p := u.parent.getD i i
    if p = i then i else u.findAux fuel p

def UF.find (u : UF) (i : Nat) : Nat := u.findAux u.parent.size i

def UF.union (u : UF) (x y : Nat) : UF :=
  let xr := u.find x
  let yr := u.find y
  if xr = yr then u
  else
    let rx := u.rank.getD xr 0
    let ry := u.rank.getD yr 0
    if rx < ry then { u with parent := u.parent.setD xr yr }
    else if ry < rx then { u with parent := u.parent.setD yr xr }
    else ⟨u.parent.setD yr xr, u.rank.setD xr (rx + 1)⟩

/-- `map.entry(k).or_insert(vec![]).push(i)` on an insertion-ordered map. -/
def mapPush (m : List ((Vec3 × Vec3) × List Nat)) (k : Vec3 × Vec3) (i : Nat) :
    List ((Vec3 × Vec3) × List Nat) :=
  match m with
  | [] => [(k, [i])]
  | (k', v) :: rest =>
    if k' = k then (k', v ++ [i]) :: rest else (k', v) :: mapPush rest k i

/-- The directed-edge → soup-index map (`edge_face_map`), iterated in
insertion order (`FnvHashMap` iteration order is unspecified; the final
union-find partition and emitted mesh are order-independent). -/
def edgeFaceMap (positions : List Vec3) : List ((Vec3 × Vec3) × List Nat) :=
  (List.range positions.length).foldl
    (fun m i =>
      mapPush m (positions.getD i default,
        positions.getD (i / 3 * 3 + (i + 1) % 3) default) i)
    []

/-- The exact `atan2` angular-order comparison: `angClass` picks the
`atan2` range quarter (`(−π,0)`, `0`, `(0,π)`, `π`); within an open
half-plane the order is the cross-product sign.  The pairs are the
(positively rescaled) `atan2` arguments `(y, x)`. -/
def angClass (y x : ℚ) : Nat :=
  if y < 0 then 0
  else if y = 0 ∧ 0 ≤ x then 1
  else if 0 < y then 2
  else 3

def angLt (a b : ℚ × ℚ) : Bool :=
  let c1 := angClass a.1 a.2
  let c2 := angClass b.1 b.2
  if c1 ≠ c2 then c1 < c2
  else if c1 = 0 ∨ c1 = 2 then 0 < qsub (qmul a.2 b.1) (qmul a.1 b.2)
  else false

/-- The (rescaled) `atan2` arguments of soup index `i` around edge
direction `d` with perpendicular reference `P`:
`(perp.cross(proj).dot(dir), perp.dot(proj))` with the positive factors
`1/‖d‖²`, `1/‖d‖` dropped — `atan2` order is unchanged. -/
def angleKey (positions : List Vec3) (e0 d P : Vec3) (i : Nat) : ℚ × ℚ :=
  let vec_out := (positions.getD (i / 3 * 3 + (i + 2) % 3) default).sub e0
  let proj := vec_out.sub (Vec3.smul (qdiv (vec_out.dot d) d.sqnorm) d)
  ((P.cross proj).dot d, P.dot proj)

/-- Sort key order `(FloatOrd(angle), !fwd)` of the angular sort. -/
def entryLt (positions : List Vec3) (e0 d P : Vec3) (a b : Nat × Bool) : Bool :=
  let ka := angleKey positions e0 d P a.1
  let kb := angleKey positions e0 d P b.1
  if angLt ka kb then true
  else if angLt kb ka then false
  else a.2 && !b.2

/-- The doubled-iterator search for the next (inverse, forward) pair:
first inverse entry, then the first forward entry cyclically after it. -/
def findInvFwd (l : List (Nat × Bool)) : Option (Nat × Nat) :=
  match l.findIdx? (fun e => e.2 = false) with
  | none => none
  | some inv =>
    match ((l ++ l).drop (inv + 1)).findIdx? (fun e => e.2 = true) with
    | none => none
    | some rel => some (inv, (rel + inv + 1) % l.length)

/-- The pairing loop: union the endpoint index sets of each adjacent
(inverse, forward) pair and drop both entries. -/
def pairLoop : Nat → List (Nat × Bool) → UF → UF
  | 0, _, uf => uf
  | fuel + 1, l, uf =>
    match findInvFwd l with
    | none => uf
    | some (invIdx, fwdIdx) =>
      let inv_i := (l.getD invIdx (0, true)).1
      let inv_j := inv_i / 3 * 3 + (inv_i + 1) % 3
      let fwd_i := (l.getD fwdIdx (0, true)).1
      let fwd_j := fwd_i / 3 * 3 + (fwd_i + 1) % 3
      let uf := (uf.union inv_i fwd_j).union inv_j fwd_i
      let l := (l.eraseIdx (max invIdx fwdIdx)).eraseIdx (min invIdx fwdIdx)
      pairLoop fuel l uf

/-- One directed edge key worth of work: gather forward and inverse lists,
sort them angularly around the edge, pair and union. -/
def processEdges (positions : List Vec3) :
    Nat → List ((Vec3 × Vec3) × List Nat) → UF → UF
  | 0, _, uf => uf
  | _ + 1, [], uf => uf
  | fuel + 1, ((e0, e1), fwdIdxs) :: rest, uf =>
    let invIdxs := (alookup rest (e1, e0)).getD []
    let rest' := rest.filter (fun kv => kv.1 ≠ (e1, e0))
    let d := e1.sub e0
    let P := if qmul (mkRat 81 1) d.sqnorm < qmul (qmul d.x d.x) (mkRat 100 1)
      then d.cross Vec3.unit_y else d.cross Vec3.unit_x
    let entries := fwdIdxs.map (fun i => (i, true)) ++
      invIdxs.map (fun i => (i, false))
    let sorted := stableSortBy (entryLt positions e0 d P) entries
    processEdges positions fuel rest' (pairLoop sorted.length sorted uf)

/-- First-occurrence deduplication (our stand-in for `FnvHashSet` iteration
order; only the set itself is observable downstream). -/
def dedupFirst (l : List Nat) : List Nat :=
  l.foldl (fun acc r => if acc.contains r then acc else acc ++ [r]) []

/-- The half-edge mesh as rebuilt by `MeshBuilder` at the end of
`manifold_from_triangle_soup`: dense positions, a flat index array, and one
tag per face. -/
structure BuiltMesh where
  points : List Vec3
  indexes : List Nat
  tags : List MaterialID
deriving DecidableEq, Repr

/-- `MaterialMesh::manifold_from_triangle_soup`.  Tags come from
`.with_default_tag(MaterialID::new(1))` — the soup carries no materials. -/
def manifold_from_triangle_soup (triangles : List Face3) : BuiltMesh :=
  let positions := triangles.flatMap (fun t => [t.1, t.2.1, t.2.2])
  let efmap := edgeFaceMap positions
  let uf := processEdges positions efmap.length efmap (UF.new positions.length)
  let repMap := (List.range positions.length).map uf.find
  let reps := dedupFirst repMap
  { points := reps.map (fun r => positions.getD r default)
    indexes := repMap.map (fun r => (idxOf? reps r).getD 0)
    tags := List.replicate (positions.length / 3) MaterialID.one }

/-- Number of edges of the rebuilt half-edge mesh: distinct unordered
vertex-index pairs over all face edges. -/
def BuiltMesh.numEdges (b : BuiltMesh) : Nat :=
  (((List.range b.indexes.length).map (fun i =>
      let a := b.indexes.getD i 0
      let c := b.indexes.getD (i / 3 * 3 + (i + 1) % 3) 0
      if a ≤ c then (a, c) else (c, a))).foldl
    (fun acc e => if acc.contains e then acc else acc ++ [e]) []).length

def BuiltMesh.numVertices (b : BuiltMesh) : Nat := b.points.length

def BuiltMesh.numFaces (b : BuiltMesh) : Nat := b.indexes.length / 3

/-!
## `boundary_graph` and `intersect_unit_cube` (lines 633-657, 969-1044)
-/

/-- The input mesh as `MeshBuilder` receives it: indexed triangles with
per-face tags (twin pairing in `tri_mesh` is by vertex index pair). -/
structure IndexedMesh where
  positions : List Vec3
  indices : List Nat
  tags : List MaterialID
deriving DecidableEq, Repr

def IndexedMesh.translate (m : IndexedMesh) (t : Vec3) : IndexedMesh :=
  { m with positions := m.positions.map (fun p => p.add t) }

/-- The directed face-cycle edges `(v_i, v_{i+1})` of every face. -/
def faceEdgeList (indices : List Nat) : List (Nat × Nat) :=
  (List.range indices.length).map (fun i =>
    (indices.getD i 0, indices.getD (i / 3 * 3 + (i + 1) % 3) 0))

/-- The faces as position triples (`face_iter` + `face_positions`). -/
def IndexedMesh.faceList (m : IndexedMesh) : List Face3 :=
  (List.range (m.indices.length / 3)).map (fun f =>
    (m.positions.getD (m.indices.getD (3 * f) 0) default,
      m.positions.getD (m.indices.getD (3 * f + 1) 0) default,
      m.positions.getD (m.indices.getD (3 * f + 2) 0) default))

/-- `MaterialMesh::boundary_graph`: boundary vertices (those of halfedges
with a face but no twin face) with their positions, and the face-sided
boundary halfedges as directed edges; lone vertices removed. -/
def boundary_graph (m : IndexedMesh) : Graph Vec3 :=
  let dir := faceEdgeList m.indices
  let bEdges := dir.filter (fun e => !(dir.contains (e.2, e.1)))
  let verts := (List.range m.positions.length).filter
    (fun v => bEdges.any (fun e => e.1 = v || e.2 = v))
  { nodes := verts.map (fun v => m.positions.getD v default)
    edges := bEdges.filterMap (fun e =>
      match idxOf? verts e.1, idxOf? verts e.2 with
      | some a, some b => some (a, b)
      | _, _ => none) }

/-- `Mat3::from_cols(unit_y, unit_z, unit_x) * normal`. -/
def tangentOf (n : Vec3) : Vec3 := vec3 n.z n.x n.y

/-- Inverse of the orthonormal affine `square_transform` applied to a
point, in coordinates `(tangent, normal×tangent, normal)`; the source
computes `square_transform.invert().unwrap()`, which for an orthonormal
frame is exactly this transpose-based inverse. -/
def toLocal (n t b : Vec3) (p : Vec3) : Vec3 :=
  let q := p.sub (Vec3.smul half n)
  vec3 (q.dot t) (q.dot b) (q.dot n)

/-- `inv_square_transform` then `truncate()`: the 2D face coordinates. -/
def to2D (n t b : Vec3) (p : Vec3) : Vec2 :=
  vec2 ((p.sub (Vec3.smul half n)).dot t) ((p.sub (Vec3.smul half n)).dot b)

/-- `square_transform` applied to a 2D point of the face. -/
def to3D (n t b : Vec3) (p : Vec2) : Vec3 :=
  (Vec3.smul p.x t).add ((Vec3.smul p.y b).add (Vec3.smul half n))

/-- `Graph::filter_map` on nodes (edges kept when both endpoints are kept);
order-preserving, as in `petgraph`. -/
def filterMapNodes (g : Graph Vec3) (f : Vec3 → Option Vec2) : Graph Vec2 :=
  let keptIdx := (List.range g.nodes.length).filter
    (fun i => (f (g.nodes.getD i default)).isSome)
  { nodes := keptIdx.filterMap (fun i => f (g.nodes.getD i default))
    edges := g.edges.filterMap (fun e =>
      match idxOf? keptIdx e.1, idxOf? keptIdx e.2 with
      | some a, some b => some (a, b)
      | _, _ => none) }

/-- `MaterialMesh::intersect_center_unit_square`: run the graph algorithm,
fall back to the signed-volume context on failure, reverse the winding and
triangulate. -/
def intersect_center_unit_square (meshFaces : List Face3)
    (boundary : Graph Vec2) : List (Vec2 × Vec2 × Vec2) :=
  let r := intersect_center_unit_square_on_graph boundary
  let g := if r.2 then r.1 else
    intersect_center_unit_square_with_context meshFaces r.1
  triangulateGraph g.reverse

/-- `MaterialMesh::intersect_unit_cube`: translate the cube to the origin,
fill all six faces from the boundary graph, rebuild the manifold from the
triangle soup and translate back. -/
def intersect_unit_cube (m : IndexedMesh) (cube_min : Vec3) : BuiltMesh :=
  let c := cube_min.add (vec3 half half half)
  let m' := m.translate c.neg
  let bg := boundary_graph m'
  let interior := m'.faceList
  let normals := [Vec3.unit_x, Vec3.unit_x.neg, Vec3.unit_y, Vec3.unit_y.neg,
    Vec3.unit_z, Vec3.unit_z.neg]
  let fills := normals.flatMap (fun n =>
    let t := tangentOf n
    let b := n.cross t
    let sub := filterMapNodes bg
      (fun p => if p.dot n = half then some (to2D n t b p) else none)
    (intersect_center_unit_square
        (interior.map (fun f => (toLocal n t b f.1, toLocal n t b f.2.1,
          toLocal n t b f.2.2)))
        sub).map
      (fun tri => (to3D n t b tri.1, to3D n t b tri.2.1, to3D n t b tri.2.2)))
  let built := manifold_from_triangle_soup (interior ++ fills)
  { built with points := built.points.map (fun p => p.add c) }

/-!
## C6 and C1: the diagonal-plane cube intersection, and material tags
-/

/-- The input of `test_intersect_unit_cube_diagonal_plane` (lines 1996-2024):
two triangles forming the diagonal quad `x + y = 1` across the unit cube. -/
def diagMesh : IndexedMesh :=
  { positions := [vec3 0 1 0, vec3 1 0 0, vec3 1 0 1, vec3 0 1 1]
    indices := [0, 1, 2, 2, 3, 0]
    tags := [MaterialID.one, MaterialID.one] }

/-- The six prism vertices the test expects. -/
def expectedPrismVertices : List Vec3 :=
  [vec3 0 1 0, vec3 1 0 0, vec3 1 0 1, vec3 0 1 1, vec3 1 1 0, vec3 1 1 1]

set_option maxRecDepth 100000 in
/-- C6: intersecting the two-triangle diagonal slab with the unit cube at
the origin yields a right triangular prism: exactly the six expected vertex
positions, 12 edges and 8 faces. -/
theorem c6_intersect_unit_cube_diagonal_prism :
    (intersect_unit_cube diagMesh Vec3.zero).numVertices = 6 ∧
      ((intersect_unit_cube diagMesh Vec3.zero).points.all
        (fun p => expectedPrismVertices.contains p)) = true ∧
      (expectedPrismVertices.all
        (fun p => (intersect_unit_cube diagMesh Vec3.zero).points.contains p))
          = true ∧
      (intersect_unit_cube diagMesh Vec3.zero).numEdges = 12 ∧
      (intersect_unit_cube diagMesh Vec3.zero).numFaces = 8 := by
  decide

theorem manifold_tags (triangles : List Face3) :
    (manifold_from_triangle_soup triangles).tags =
      List.replicate
        ((triangles.flatMap (fun t => [t.1, t.2.1, t.2.2])).length / 3)
        MaterialID.one := rfl

set_option maxRecDepth 100000 in
/-- C1: `intersect_unit_cube` does *not* preserve material tags — the soup
it builds keeps only positions, and `manifold_from_triangle_soup` rebuilds
the mesh with `with_default_tag(MaterialID::new(1))`, so every face of the
returned mesh is tagged 1 whatever the input tags were.  In particular the
diagonal-slab mesh with both faces tagged 2 comes back with every one of its
8 faces (the surviving interior triangles included) tagged 1. -/
theorem c1_intersect_unit_cube_default_tags :
    (∀ (m : IndexedMesh) (cube_min : Vec3),
      ∀ t ∈ (intersect_unit_cube m cube_min).tags, t = MaterialID.one) ∧
      (intersect_unit_cube { diagMesh with tags := [⟨2⟩, ⟨2⟩] }
          Vec3.zero).tags = List.replicate 8 MaterialID.one := by
  constructor
  · intro m cube_min t ht
    have htags : ∃ k, (intersect_unit_cube m cube_min).tags =
        List.replicate k MaterialID.one := ⟨_, rfl⟩
    obtain ⟨k, hk⟩ := htags
    rw [hk] at ht
    exact List.eq_of_mem_replicate ht
  · decide

set_option maxRecDepth 100000 in
/-- C1 witness: the first face tag of the retagged diagonal mesh's cube
intersection is `MaterialID 1`, by the theorem applied at that input. -/
theorem c1_intersect_unit_cube_default_tags_witness :
    (intersect_unit_cube { diagMesh with tags := [⟨2⟩, ⟨2⟩] }
        Vec3.zero).tags.getD 0 ⟨0⟩ = MaterialID.one :=
  c1_intersect_unit_cube_default_tags.1
    { diagMesh with tags := [⟨2⟩, ⟨2⟩] } Vec3.zero _ (by decide)

end Voxel
